import Mathlib

/-!
A verification development for the format-analyzer core of
`onlinejudge_template` (file `onlinejudge_template/analyzer/__init__.py`).

The development is a shallow embedding of the analyzer:

* Expression strings handled by sympy (`simplify`, `str(simplify(...))`)
  are embedded as an `Expr` syntax tree; sympy's parse-and-auto-evaluate
  step is embedded as `simplify : Expr → Option Lin`, where `Lin` is the
  canonical form of an integer-linear expression (rational constant plus a
  sorted list of variable/coefficient pairs), and sympy's printer is
  embedded as `Lin.toExpr`.  String interpolation of already-canonical
  expression strings (for example `f"{j} - {i} + 1"`) is embedded as the
  corresponding `Expr` constructors.  Expressions outside the
  integer-linear fragment (which the analyzer is not required to
  understand) make `simplify` return `none`, surfacing as
  `Err.internalError`.
* The four abstract node classes (`ItemNode`, `NewlineNode`,
  `SequenceNode`, `LoopNode`, defined in `onlinejudge_template.types` and
  used field-by-field in the analyzer) are embedded as `FormatNode`, and
  the concrete parser node classes as `ParserNode` (their `line`/`column`
  diagnostic fields, which no analyzed result depends on, are omitted).
* Exceptions (`LexerError`, `ParserError`, `SyntaxError`) are embedded as
  an `Except Err` result; assertion failures and out-of-fragment
  expressions are `Err.internalError`.
-/

/-- The error kinds of the analyzer: `LexerError` (with the offending
character, the 1-based line and the raw `lexpos` the code reports as
"column"), `ParserError` (with the unexpected token's type, value, line
and 1-based column), `SyntaxError` (an unmatched dots pair), and internal
failures (assertion failure, fuel exhaustion, or an expression outside
the integer-linear fragment). -/
inductive Err where
  | lexError (ch : Char) (line : Nat) (lexpos : Nat)
  | parseError (ttype : String) (value : String) (line : Nat) (column : Nat)
  | synError
  | internalError
deriving DecidableEq, Repr

/-- Embedded expression strings: the abstract syntax of the arithmetic
expression strings that flow through the analyzer (identifiers, integer
literals, and the four binary operators of the grammar). -/
inductive Expr where
  | num (n : Int)
  | var (x : String)
  | add (a b : Expr)
  | sub (a b : Expr)
  | mul (a b : Expr)
  | div (a b : Expr)
deriving DecidableEq, Repr

/-- Canonical form of an integer-linear expression: a rational constant
plus variable/coefficient terms kept sorted by variable name with all
coefficients nonzero.  This models the canonical sympy object returned by
`simplify` (`sympy_parser.parse_expr` with auto-evaluation). -/
structure Lin where
  const : Rat
  terms : List (String × Rat)
deriving DecidableEq, Repr

/-- Insert a (nonzero) coefficient for variable `x` into a sorted term
list, combining with an existing term for `x` and dropping it if the sum
cancels. -/
def insertTerm (x : String) (q : Rat) : List (String × Rat) → List (String × Rat)
  | [] => [(x, q)]
  | (y, r) :: rest =>
    if x < y then (x, q) :: (y, r) :: rest
    else if x = y then (if q + r = 0 then rest else (x, q + r) :: rest)
    else (y, r) :: insertTerm x q rest

/-- Add a coefficient for `x` to a sorted term list (no-op for a zero
coefficient). -/
def addTerm (x : String) (q : Rat) (l : List (String × Rat)) : List (String × Rat) :=
  if q = 0 then l else insertTerm x q l

/-- Sum of two canonical linear forms. -/
def Lin.add (a b : Lin) : Lin :=
  ⟨a.const + b.const, a.terms.foldr (fun t l => addTerm t.1 t.2 l) b.terms⟩

/-- Scale a canonical linear form by a rational constant. -/
def Lin.scale (q : Rat) (a : Lin) : Lin :=
  ⟨q * a.const, if q = 0 then [] else a.terms.map (fun t => (t.1, q * t.2))⟩

/-- Difference of two canonical linear forms. -/
def Lin.sub (a b : Lin) : Lin := a.add (b.scale (-1))

/-- The symbolic engine's canonicalization, embedding
`sympy_parser.parse_expr(s, ...)`: evaluate an expression string to its
canonical linear form, or `none` when the expression leaves the
integer-linear fragment (a product of two non-constant expressions, or a
division by a non-constant or by zero). -/
def simplify : Expr → Option Lin
  | .num n => some ⟨(n : Rat), []⟩
  | .var x => some ⟨0, [(x, 1)]⟩
  | .add a b =>
    match simplify a, simplify b with
    | some la, some lb => some (la.add lb)
    | _, _ => none
  | .sub a b =>
    match simplify a, simplify b with
    | some la, some lb => some (la.sub lb)
    | _, _ => none
  | .mul a b =>
    match simplify a, simplify b with
    | some la, some lb =>
      match la.terms, lb.terms with
      | [], _ => some (lb.scale la.const)
      | _, [] => some (la.scale lb.const)
      | _, _ => none
    | _, _ => none
  | .div a b =>
    match simplify a, simplify b with
    | some la, some lb =>
      match lb.terms with
      | [] => if lb.const = 0 then none else some (la.scale lb.const⁻¹)
      | _ => none
    | _, _ => none

/-- Print a rational constant back to expression syntax (an integer
literal, or a quotient of integer literals). -/
def ratToExpr (q : Rat) : Expr :=
  if q.den = 1 then .num q.num else .div (.num q.num) (.num (q.den : Int))

/-- Print one linear term back to expression syntax. -/
def termToExpr (x : String) (q : Rat) : Expr :=
  if q = 1 then .var x else .mul (ratToExpr q) (.var x)

/-- Print a canonical linear form back to expression syntax; this embeds
`str(...)` applied to a canonical sympy object. -/
def Lin.toExpr (l : Lin) : Expr :=
  l.terms.foldr (fun t e => Expr.add (termToExpr t.1 t.2) e) (ratToExpr l.const)

/-- The spec's one symbolic-engine operation
(`canonicalize(expr-string) → canonical form`): the embedding of
`str(simplify(s))`, defined for expressions the engine accepts. -/
def canonicalize (e : Expr) : Option Expr := (simplify e).map Lin.toExpr

/-- `str(simplify(s))` as it occurs inside the analyzer, with
out-of-fragment expressions surfacing as an internal error. -/
def canonStr (e : Expr) : Except Err Expr :=
  match simplify e with
  | some l => .ok l.toExpr
  | none => .error .internalError

/-- Well-formedness of a canonical linear form: terms strictly sorted by
variable name, all coefficients nonzero. -/
def Lin.Norm (l : Lin) : Prop :=
  l.terms.Pairwise (fun a b => a.1 < b.1) ∧ ∀ t ∈ l.terms, t.2 ≠ 0


/-- The abstract format tree (the `FormatNode` classes of
`onlinejudge_template.types`, used field-for-field by the analyzer):
`ItemNode(name, indices)`, `NewlineNode()`, `SequenceNode(items)`, and
`LoopNode(size, name, body)`.  Index and size expression strings are
embedded as `Expr`. -/
inductive FormatNode where
  | ItemNode (name : String) (indices : List Expr)
  | NewlineNode
  | SequenceNode (items : List FormatNode)
  | LoopNode (size : Expr) (name : String) (body : FormatNode)
deriving Repr

/-- The concrete parse tree (`ParserNode` classes of the analyzer):
`ItemParserNode(name, indices)`, `NewlineParserNode`,
`SequenceParserNode(items)`, `DotsParserNode(first, last)`.  The
`line`/`column` diagnostic fields are omitted (no analysis result depends
on them). -/
inductive ParserNode where
  | ItemParserNode (name : String) (indices : List Expr)
  | NewlineParserNode
  | SequenceParserNode (items : List ParserNode)
  | DotsParserNode (first last : ParserNode)
deriving Repr

/-- Substitute an expression for every occurrence of a variable.  This
embeds the analyzer's `re.subn(r'\b<name>\b', '(-1)', j)` word-boundary
regex substitution (identifiers are maximal letter runs, so a
word-boundary match is exactly a whole-variable occurrence). -/
def Expr.subst (e : Expr) (x : String) (r : Expr) : Expr :=
  match e with
  | .num n => .num n
  | .var y => if y = x then r else .var y
  | .add a b => .add (a.subst x r) (b.subst x r)
  | .sub a b => .sub (a.subst x r) (b.subst x r)
  | .mul a b => .mul (a.subst x r) (b.subst x r)
  | .div a b => .div (a.subst x r) (b.subst x r)

mutual

/-- `list_used_names`: the item names and loop counter names occurring in
a tree (the source returns a `Set[str]`; the embedding returns a list and
only membership is ever used). -/
def list_used_names : FormatNode → List String
  | .ItemNode name _ => [name]
  | .NewlineNode => []
  | .SequenceNode items => usedNamesList items
  | .LoopNode _ name body => name :: list_used_names body

/-- Union over a list of trees, in order. -/
def usedNamesList : List FormatNode → List String
  | [] => []
  | x :: xs => list_used_names x ++ usedNamesList xs

end

/-- The counter-name namespace the analyzer scans: single letters from
`'i'` through `'z'`. -/
def counterLetters : List String :=
  ["i", "j", "k", "l", "m", "n", "o", "p", "q", "r", "s", "t", "u", "v", "w", "x", "y", "z"]

/-- The analyzer's counter allocation loop (`name = 'i'; while name in
used_names: assert name != 'z'; name = chr(ord(name) + 1)`): the first
letter from `'i'` onward not in `used`; `none` embeds the assertion
failure when the namespace is exhausted. -/
def freshCounterName (used : List String) : Option String :=
  counterLetters.find? (fun n => ! used.contains n)

/-- The expression the string `f"{j} - {i}"` parses back to: the splice
is textual and unparenthesized, and `+`/`-` associate to the left at the
top level, so the spliced minus sign binds only to the first top-level
additive atom of `i`'s printed form, while `i`'s remaining top-level
terms keep their own signs (e.g. `j = "2*N"`, `i = "N - 1"` reads back
as `2*N - N - 1`, not `2*N - (N - 1)`). -/
def spliceSub (j : Expr) : Expr → Expr
  | .add a b => .add (spliceSub j a) b
  | .sub a b => .sub (spliceSub j a) b
  | e => .sub j e

/-- `simplify(f"{j} - {i} + 1")`: the trip count implied by a varying
index position, with the source's ungrouped textual splice of `i`
(see `spliceSub`). -/
def strideOf (i j : Expr) : Option Lin :=
  simplify (Expr.add (spliceSub j i) (Expr.num 1))

/-- The trip-count update at a varying index position of `zip_nodes`'s
`ItemNode` case: an unset running trip count is set to
`str(simplify(f"{j} - {i} + 1"))`; a set one must agree canonically with
the implied stride, else `SyntaxError`.  Both paths splice `i` textually
without grouping (see `spliceSub`). -/
def zipSizeStep (i j : Expr) (size : Option Expr) : Except Err (Option Expr) :=
  match size with
  | none =>
    match strideOf i j with
    | some lstride => .ok (some lstride.toExpr)
    | none => .error .internalError
  | some s =>
    match strideOf i j, simplify s with
    | some lstride, some ls =>
      if lstride = ls then .ok (some s) else .error .synError
    | _, _ => .error .internalError

/-- The per-index-position loop of `zip_nodes`'s `ItemNode` case
continued: equal canonical indices are kept literally; a varying position
updates the trip count through `zipSizeStep` and is merged to
`str(simplify(f"{i} + {name}"))`. -/
def zipIndices (name : String) : List (Expr × Expr) → Option Expr →
    Except Err (List Expr × Option Expr)
  | [], size => .ok ([], size)
  | (i, j) :: rest, size =>
    match simplify i, simplify j with
    | some li, some lj =>
      if li = lj then
        match zipIndices name rest size with
        | .ok (indices, size2) => .ok (i :: indices, size2)
        | .error e => .error e
      else
        match zipSizeStep i j size with
        | .error e => .error e
        | .ok size2 =>
          match canonStr (Expr.add i (Expr.var name)) with
          | .error e => .error e
          | .ok idx =>
            match zipIndices name rest size2 with
            | .ok (indices, size3) => .ok (idx :: indices, size3)
            | .error e => .error e
    | _, _ => .error .internalError

mutual

/-- `zip_nodes`: structural unification of a dots-pair's first/last
snapshots, threading the running trip count; `SyntaxError`
("unmatched dots pair") on any name, arity, kind, stride, or nested-loop
mismatch. -/
def zip_nodes (a b : FormatNode) (name : String) (size : Option Expr) :
    Except Err (FormatNode × Option Expr) :=
  match a, b with
  | .ItemNode an ai, .ItemNode bn bi =>
    if an ≠ bn ∨ ai.length ≠ bi.length then .error .synError
    else
      match zipIndices name (ai.zip bi) size with
      | .ok (indices, size2) => .ok (.ItemNode an indices, size2)
      | .error e => .error e
  | .NewlineNode, .NewlineNode => .ok (.NewlineNode, size)
  | .SequenceNode xs, .SequenceNode ys =>
    if xs.length ≠ ys.length then .error .synError
    else
      match zipList xs ys name size with
      | .ok (items, size2) => .ok (.SequenceNode items, size2)
      | .error e => .error e
  | .LoopNode asize an abody, .LoopNode bsize bn bbody =>
    if asize ≠ bsize ∨ an ≠ bn then .error .synError
    else
      match zip_nodes abody bbody name size with
      | .ok (c, size2) => .ok (.LoopNode asize an c, size2)
      | .error e => .error e
  | _, _ => .error .synError

/-- Element-wise unification of two sequences' items (the `for a_i, b_i
in zip(a.items, b.items)` loop; lengths were checked by the caller, and
`zip` truncation is mirrored for faithfulness). -/
def zipList (xs ys : List FormatNode) (name : String) (size : Option Expr) :
    Except Err (List FormatNode × Option Expr) :=
  match xs, ys with
  | [], _ => .ok ([], size)
  | _ :: _, [] => .ok ([], size)
  | x :: xs2, y :: ys2 =>
    match zip_nodes x y name size with
    | .ok (c, size2) =>
      match zipList xs2 ys2 name size2 with
      | .ok (items, size3) => .ok (c :: items, size3)
      | .error e => .error e
    | .error e => .error e

end

/-- The per-index-position loop of `exnted_loop_node`'s `ItemNode` case:
substitute `(-1)` for the loop counter in the candidate's index, compare
canonically with the body's index, and merge to
`str(simplify(f"{i} + {loop.name}"))`; any inequality (or an expression
the engine cannot canonicalize) is "cannot extend". -/
def extendIndices (loopName : String) : List (Expr × Expr) → Option (List Expr)
  | [] => some []
  | (i, j) :: rest =>
    let decr_j := j.subst loopName (.num (-1))
    match simplify i, simplify decr_j with
    | some li, some ld =>
      if li = ld then
        match simplify (Expr.add i (Expr.var loopName)) with
        | some lidx =>
          match extendIndices loopName rest with
          | some indices => some (lidx.toExpr :: indices)
          | none => none
        | none => none
      else none
    | _, _ => none

mutual

/-- `exnted_loop_node` (the source's name): test whether candidate `a` is
one more leading repetition of loop body `b`; returns the reindexed
absorbed body, or `none` ("cannot extend" — a normal negative result,
never an error).  The source passes the whole loop and uses only its
counter name, which is what is passed here. -/
def exnted_loop_node (a b : FormatNode) (loopName : String) : Option FormatNode :=
  match a, b with
  | .ItemNode an ai, .ItemNode bn bi =>
    if an ≠ bn ∨ ai.length ≠ bi.length then none
    else
      match extendIndices loopName (ai.zip bi) with
      | some indices => some (.ItemNode an indices)
      | none => none
  | .NewlineNode, .NewlineNode => some .NewlineNode
  | .SequenceNode xs, .SequenceNode ys =>
    if xs.length ≠ ys.length then none
    else
      match extendList xs ys loopName with
      | some items => some (.SequenceNode items)
      | none => none
  | .LoopNode asize an abody, .LoopNode bsize bn bbody =>
    if asize ≠ bsize ∨ an ≠ bn then none
    else
      match exnted_loop_node abody bbody loopName with
      | some c => some (.LoopNode asize an c)
      | none => none
  | _, _ => none

/-- Element-wise extension of two sequences' items (lengths were checked
by the caller; `zip` truncation is mirrored). -/
def extendList (xs ys : List FormatNode) (loopName : String) :
    Option (List FormatNode) :=
  match xs, ys with
  | [], _ => some []
  | _ :: _, [] => some []
  | x :: xs2, y :: ys2 =>
    match exnted_loop_node x y loopName with
    | some c =>
      match extendList xs2 ys2 loopName with
      | some items => some (c :: items)
      | none => none
    | none => none

end

mutual

/-- Number of tree nodes (used only to pick a sufficient amount of fuel
for the flattening loop). -/
def sizeF : FormatNode → Nat
  | .ItemNode _ _ => 1
  | .NewlineNode => 1
  | .SequenceNode items => 1 + sizeList items
  | .LoopNode _ _ body => 1 + sizeF body

/-- Total number of tree nodes of a list of trees. -/
def sizeList : List FormatNode → Nat
  | [] => 0
  | x :: xs => sizeF x + sizeList xs

end

/-- The trailing-sibling group the flattening loop compares against a
loop body: the last accumulated sibling, or — when the body is a
`k`-element sequence and at least `k` siblings are accumulated — the
trailing `k` siblings wrapped as a sequence (`items[:-len(...)]` /
`SequenceNode(items[-len(...):])` versus `items[:-1]` / `items[-1]`). -/
def splitTail (items : List FormatNode) (body : FormatNode) :
    List FormatNode × FormatNode :=
  match body with
  | .SequenceNode bs =>
    if bs.length ≤ items.length then
      (items.take (items.length - bs.length),
        .SequenceNode (items.drop (items.length - bs.length)))
    else (items.dropLast, items.getLastD .NewlineNode)
  | _ => (items.dropLast, items.getLastD .NewlineNode)

/-- The `while que:` flattening-and-folding loop of `analyze`'s
`SequenceParserNode` case: splice nested sequences in place, and when the
queue's head is a loop with accumulated preceding siblings, try to absorb
the trailing sibling group into the loop (trip count `+ 1`, grown loop
re-queued).  The loop terminates on every input; the explicit fuel only
makes the recursion structural, and running out yields an internal
error. -/
def flattenGo : Nat → List FormatNode → List FormatNode → Except Err (List FormatNode)
  | 0, _, _ => .error .internalError
  | _ + 1, items, [] => .ok items
  | fuel + 1, items, q :: que =>
    match q with
    | .SequenceNode xs => flattenGo fuel items (xs ++ que)
    | .LoopNode size name body =>
      if items.isEmpty then flattenGo fuel (items ++ [q]) que
      else
        let (itemsInit, itemsTail) := splitTail items body
        match exnted_loop_node itemsTail body name with
        | some extendedBody =>
          match canonStr (Expr.add size (Expr.num 1)) with
          | .ok newSize =>
            flattenGo fuel itemsInit (.LoopNode newSize name extendedBody :: que)
          | .error e => .error e
        | none => flattenGo fuel (items ++ [q]) que
    | _ => flattenGo fuel (items ++ [q]) que

/-- Fuel sufficient for the flattening loop (each sequence-splicing or
absorption step strictly shrinks the total node count, and at most
`length` dequeue steps happen in between). -/
def flattenFuel (que : List FormatNode) : Nat :=
  (sizeList que + 1) * (sizeList que + 2)

/-- `str(simplify(index))` applied to each raw index of an item (the
`ItemParserNode` case of `analyze`). -/
def canonIndices : List Expr → Except Err (List Expr)
  | [] => .ok []
  | e :: rest =>
    match canonStr e with
    | .ok s =>
      match canonIndices rest with
      | .ok ss => .ok (s :: ss)
      | .error err => .error err
    | .error err => .error err

/-- The unification step of `analyze`'s `DotsParserNode` case after the
counter is allocated: `zip_nodes` with an unset running trip count,
followed by the `SyntaxError` raised when unification resolved no trip
count (`if size is None`). -/
def dotsUnify (a b : FormatNode) (name : String) : Except Err FormatNode :=
  match zip_nodes a b name none with
  | .error e => .error e
  | .ok (_, none) => .error .synError
  | .ok (c, some s) => .ok (.LoopNode s name c)

mutual

/-- `analyze`: concrete tree to abstract tree.  Items canonicalize their
indices; sequences map `analyze` over their children and run the
flattening-and-folding loop, collapsing a length-1 result; a dots pair
analyzes both operands, allocates a fresh counter against the names used
in either operand (internal error when the `i`–`z` namespace is
exhausted), unifies the two trees, and fails with `SyntaxError` when no
index position varied (no trip count was resolved). -/
def analyze : ParserNode → Except Err FormatNode
  | .ItemParserNode name indices =>
    match canonIndices indices with
    | .ok idx => .ok (.ItemNode name idx)
    | .error e => .error e
  | .NewlineParserNode => .ok .NewlineNode
  | .SequenceParserNode items =>
    match analyzeList items with
    | .ok que =>
      match flattenGo (flattenFuel que) [] que with
      | .ok [item] => .ok item
      | .ok items2 => .ok (.SequenceNode items2)
      | .error e => .error e
    | .error e => .error e
  | .DotsParserNode first last =>
    match analyze first with
    | .error e => .error e
    | .ok a =>
      match analyze last with
      | .error e => .error e
      | .ok b =>
        let used := list_used_names a ++ list_used_names b
        match freshCounterName used with
        | none => .error .internalError
        | some name => dotsUnify a b name

/-- `analyze` mapped over a sequence's children (`list(map(analyze,
node.items))`). -/
def analyzeList : List ParserNode → Except Err (List FormatNode)
  | [] => .ok []
  | x :: xs =>
    match analyze x with
    | .ok a =>
      match analyzeList xs with
      | .ok rest => .ok (a :: rest)
      | .error e => .error e
    | .error e => .error e

end

/-- A lexer token: ply's `LexToken` with its type name, matched text,
1-based line number, and 0-based absolute position `lexpos`. -/
structure Token where
  ttype : String
  value : String
  lineno : Nat
  lexpos : Nat
deriving DecidableEq, Repr

/-- Prepend a token to the rest of a token stream (propagating a later
lexer error). -/
def emitTok (t : Token) (r : Except Err (List Token)) : Except Err (List Token) :=
  match r with
  | .ok ts => .ok (t :: ts)
  | .error e => .error e

/-- The lexer loop (`build_lexer`), one rule application per step, rules
in ply's order: the function rules `t_NEWLINE` (`\r?\n`, incrementing
`lineno`) and `t_tex_space` (`\ `, `\,`, `\;`, `~`, no token), then the
string rules longest-regex-first — `t_DOTS` (`..` plus further dots, `…`,
`\dots`, `\ldots`, `\cdots`), `t_MUL` (`*`, `×`, `\times`), `t_VDOTS`
(`:`, `⋮`, `\vdots`), `t_IDENT` (maximal letter run), `t_NUMBER` (maximal
digit run), and the single-character rules.  Characters in `t_ignore`
(space, tab, `$`) are skipped before any rule.  On no match, `t_error`
raises `LexerError` with the offending character, the current 1-based
`lineno` and the raw 0-based `lexpos`.  The fuel only makes the recursion
structural; `tokenize` supplies enough for any input. -/
def lexGo : Nat → List Char → Nat → Nat → Except Err (List Token)
  | 0, _, _, _ => .error .internalError
  | _ + 1, [], _, _ => .ok []
  | fuel + 1, c :: rest, pos, line =>
    if c = ' ' || c = '\t' || c = '$' then lexGo fuel rest (pos + 1) line
    else if c = '\r' then
      if rest.head? = some '\n' then
        emitTok ⟨"NEWLINE", "\r\n", line, pos⟩ (lexGo fuel rest.tail (pos + 2) (line + 1))
      else .error (.lexError c line pos)
    else if c = '\n' then
      emitTok ⟨"NEWLINE", "\n", line, pos⟩ (lexGo fuel rest (pos + 1) (line + 1))
    else if c = '~' then lexGo fuel rest (pos + 1) line
    else if c = '\\' then
      if rest.head? = some ' ' || rest.head? = some ',' || rest.head? = some ';' then
        lexGo fuel rest.tail (pos + 2) line
      else if rest.take 4 = ['d', 'o', 't', 's'] then
        emitTok ⟨"DOTS", "\\dots", line, pos⟩ (lexGo fuel (rest.drop 4) (pos + 5) line)
      else if rest.take 5 = ['l', 'd', 'o', 't', 's'] then
        emitTok ⟨"DOTS", "\\ldots", line, pos⟩ (lexGo fuel (rest.drop 5) (pos + 6) line)
      else if rest.take 5 = ['c', 'd', 'o', 't', 's'] then
        emitTok ⟨"DOTS", "\\cdots", line, pos⟩ (lexGo fuel (rest.drop 5) (pos + 6) line)
      else if rest.take 5 = ['t', 'i', 'm', 'e', 's'] then
        emitTok ⟨"MUL", "\\times", line, pos⟩ (lexGo fuel (rest.drop 5) (pos + 6) line)
      else if rest.take 5 = ['v', 'd', 'o', 't', 's'] then
        emitTok ⟨"VDOTS", "\\vdots", line, pos⟩ (lexGo fuel (rest.drop 5) (pos + 6) line)
      else .error (.lexError c line pos)
    else if c = '.' then
      if rest.head? = some '.' then
        emitTok
          ⟨"DOTS", String.mk ('.' :: '.' :: rest.tail.takeWhile (fun d => d = '.')), line, pos⟩
          (lexGo fuel (rest.tail.drop (rest.tail.takeWhile (fun d => d = '.')).length)
            (pos + 2 + (rest.tail.takeWhile (fun d => d = '.')).length) line)
      else .error (.lexError c line pos)
    else if c = '…' then
      emitTok ⟨"DOTS", "…", line, pos⟩ (lexGo fuel rest (pos + 1) line)
    else if c = '*' then
      emitTok ⟨"MUL", "*", line, pos⟩ (lexGo fuel rest (pos + 1) line)
    else if c = '×' then
      emitTok ⟨"MUL", "×", line, pos⟩ (lexGo fuel rest (pos + 1) line)
    else if c = ':' then
      emitTok ⟨"VDOTS", ":", line, pos⟩ (lexGo fuel rest (pos + 1) line)
    else if c = '⋮' then
      emitTok ⟨"VDOTS", "⋮", line, pos⟩ (lexGo fuel rest (pos + 1) line)
    else if c.isAlpha then
      emitTok ⟨"IDENT", String.mk ((c :: rest).takeWhile Char.isAlpha), line, pos⟩
        (lexGo fuel ((c :: rest).drop ((c :: rest).takeWhile Char.isAlpha).length)
          (pos + ((c :: rest).takeWhile Char.isAlpha).length) line)
    else if c.isDigit then
      emitTok ⟨"NUMBER", String.mk ((c :: rest).takeWhile Char.isDigit), line, pos⟩
        (lexGo fuel ((c :: rest).drop ((c :: rest).takeWhile Char.isDigit).length)
          (pos + ((c :: rest).takeWhile Char.isDigit).length) line)
    else if c = '_' then
      emitTok ⟨"UNDERSCORE", "_", line, pos⟩ (lexGo fuel rest (pos + 1) line)
    else if c = '\x7b' then
      emitTok ⟨"LBRACE", "\x7b", line, pos⟩ (lexGo fuel rest (pos + 1) line)
    else if c = '\x7d' then
      emitTok ⟨"RBRACE", "\x7d", line, pos⟩ (lexGo fuel rest (pos + 1) line)
    else if c = ',' then
      emitTok ⟨"COMMA", ",", line, pos⟩ (lexGo fuel rest (pos + 1) line)
    else if c = '+' then
      emitTok ⟨"ADD", "+", line, pos⟩ (lexGo fuel rest (pos + 1) line)
    else if c = '-' then
      emitTok ⟨"SUB", "-", line, pos⟩ (lexGo fuel rest (pos + 1) line)
    else if c = '/' then
      emitTok ⟨"DIV", "/", line, pos⟩ (lexGo fuel rest (pos + 1) line)
    else .error (.lexError c line pos)

/-- Run the lexer on an input (ply starts at `lexpos = 0`,
`lineno = 1`). -/
def tokenize (input : List Char) : Except Err (List Token) :=
  lexGo (input.length + 1) input 0 1

/-- `find_column`: 1-based column of an absolute position
(`lexpos - (input.rfind('\n', 0, lexpos) + 1) + 1`). -/
def find_column (input : List Char) (lexpos : Nat) : Nat :=
  ((input.take lexpos).reverse.takeWhile (fun c => c ≠ '\n')).length + 1

/-- `p_error`: the `ParserError` for an unexpected token.  (ply calls
`p_error(None)` at an unexpected end of input, which crashes the
source's `t.type` access with an `AttributeError`; that path is embedded
as `Err.internalError`.) -/
def perror (input : List Char) (t : Token) : Err :=
  .parseError t.ttype t.value t.lineno (find_column input t.lexpos)

/-- Is this token one of the four binary-operator tokens
(`p_binop`)? -/
def isBinopTok (t : Token) : Bool :=
  t.ttype = "ADD" || t.ttype = "SUB" || t.ttype = "MUL" || t.ttype = "DIV"

/-- Build the `Expr` for `p_expr`'s `IDENT binop expr` / `NUMBER binop
expr` string `f"{p[1]} {p[2]} {p[3]}"`, by operator token type.  (For the
`MUL` spellings `×`/`\times` the source would later hand sympy an
unparsable string and crash outside the three error kinds; the embedding
selects by token type, which is exact for the inputs the analyzer
accepts.) -/
def binopNode (t : Token) (a b : Expr) : Expr :=
  if t.ttype = "ADD" then .add a b
  else if t.ttype = "SUB" then .sub a b
  else if t.ttype = "MUL" then .mul a b
  else .div a b

/-- The integer of a `NUMBER` token's matched text. -/
def numOf (t : Token) : Expr := .num ((t.value.toNat?.getD 0 : Nat) : Int)

/-- `p_expr`: `expr := IDENT | NUMBER | NUMBER IDENT | IDENT binop expr
| NUMBER binop expr` (with `NUMBER IDENT` the implicit multiplication
`f"{p[1]} * {p[2]}"`). -/
def parseExpr (input : List Char) : Nat → List Token → Except Err (Expr × List Token)
  | 0, _ => .error .internalError
  | _ + 1, [] => .error .internalError
  | fuel + 1, t :: rest =>
    if t.ttype = "IDENT" then
      match rest with
      | b :: rest2 =>
        if isBinopTok b then
          match parseExpr input fuel rest2 with
          | .ok (e, rest3) => .ok (binopNode b (.var t.value) e, rest3)
          | .error err => .error err
        else .ok (.var t.value, rest)
      | [] => .ok (.var t.value, [])
    else if t.ttype = "NUMBER" then
      match rest with
      | b :: rest2 =>
        if b.ttype = "IDENT" then .ok (.mul (numOf t) (.var b.value), rest2)
        else if isBinopTok b then
          match parseExpr input fuel rest2 with
          | .ok (e, rest3) => .ok (binopNode b (numOf t) e, rest3)
          | .error err => .error err
        else .ok (numOf t, rest)
      | [] => .ok (numOf t, [])
    else .error (perror input t)

/-- `p_exprs`: `exprs := expr COMMA exprs | expr`. -/
def parseExprs (input : List Char) : Nat → List Token → Except Err (List Expr × List Token)
  | 0, _ => .error .internalError
  | fuel + 1, toks =>
    match parseExpr input (toks.length + 1) toks with
    | .ok (e, rest) =>
      match rest with
      | t :: rest2 =>
        if t.ttype = "COMMA" then
          match parseExprs input fuel rest2 with
          | .ok (es, rest3) => .ok (e :: es, rest3)
          | .error err => .error err
        else .ok ([e], rest)
      | [] => .ok ([e], [])
    | .error err => .error err

/-- `p_item`: `item := IDENT | IDENT '_' NUMBER | IDENT '_' IDENT |
IDENT '_' '\x7b' exprs '\x7d'`. -/
def parseItem (input : List Char) (toks : List Token) :
    Except Err (ParserNode × List Token) :=
  match toks with
  | [] => .error .internalError
  | t :: rest =>
    if t.ttype = "IDENT" then
      match rest with
      | u :: rest2 =>
        if u.ttype = "UNDERSCORE" then
          match rest2 with
          | v :: rest3 =>
            if v.ttype = "NUMBER" then .ok (.ItemParserNode t.value [numOf v], rest3)
            else if v.ttype = "IDENT" then .ok (.ItemParserNode t.value [.var v.value], rest3)
            else if v.ttype = "LBRACE" then
              match parseExprs input (rest3.length + 1) rest3 with
              | .ok (es, rest4) =>
                match rest4 with
                | w :: rest5 =>
                  if w.ttype = "RBRACE" then .ok (.ItemParserNode t.value es, rest5)
                  else .error (perror input w)
                | [] => .error .internalError
              | .error err => .error err
            else .error (perror input v)
          | [] => .error .internalError
        else .ok (.ItemParserNode t.value [], rest)
      | [] => .ok (.ItemParserNode t.value [], [])
    else .error (perror input t)

/-- `p_items`: `items := item DOTS item items | item DOTS item |
item items | item`, the continuation decided by whether the next token
can start an item (`IDENT`).  The source's `item DOTS item items` action
reads `.items` off the `DOTS` token (`p[2]` instead of `p[4]`), an
`AttributeError` whenever that production is reduced; the embedding runs
it as `Err.internalError` after the inner `items` has been parsed, as the
bottom-up parse does. -/
def parseItems (input : List Char) : Nat → List Token → Except Err (ParserNode × List Token)
  | 0, _ => .error .internalError
  | fuel + 1, toks =>
    match parseItem input toks with
    | .ok (it, rest) =>
      match rest with
      | t :: rest2 =>
        if t.ttype = "DOTS" then
          match parseItem input rest2 with
          | .ok (it2, rest3) =>
            match rest3 with
            | u :: _ =>
              if u.ttype = "IDENT" then
                match parseItems input fuel rest3 with
                | .ok _ => .error .internalError
                | .error err => .error err
              else
                .ok (.SequenceParserNode [.DotsParserNode it it2], rest3)
            | [] => .ok (.SequenceParserNode [.DotsParserNode it it2], [])
          | .error err => .error err
        else if t.ttype = "IDENT" then
          match parseItems input fuel rest with
          | .ok (.SequenceParserNode items, rest2b) =>
            .ok (.SequenceParserNode (it :: items), rest2b)
          | .ok _ => .error .internalError
          | .error err => .error err
        else .ok (.SequenceParserNode [it], rest)
      | [] => .ok (.SequenceParserNode [it], [])
    | .error err => .error err

/-- `p_line`: `line := items newline`, appending the newline node to the
items. -/
def parseLine (input : List Char) (toks : List Token) :
    Except Err (ParserNode × List Token) :=
  match parseItems input (toks.length + 1) toks with
  | .ok (.SequenceParserNode items, rest) =>
    match rest with
    | t :: rest2 =>
      if t.ttype = "NEWLINE" then
        .ok (.SequenceParserNode (items ++ [.NewlineParserNode]), rest2)
      else .error (perror input t)
    | [] => .error .internalError
  | .ok _ => .error .internalError
  | .error err => .error err

/-- `p_lines`: `lines := line | line VDOTS newline line | line DOTS
newline line` (the separating newline node is dropped). -/
def parseLines (input : List Char) (toks : List Token) :
    Except Err (ParserNode × List Token) :=
  match parseLine input toks with
  | .ok (ln, rest) =>
    match rest with
    | t :: rest2 =>
      if t.ttype = "VDOTS" || t.ttype = "DOTS" then
        match rest2 with
        | u :: rest3 =>
          if u.ttype = "NEWLINE" then
            match parseLine input rest3 with
            | .ok (ln2, rest4) => .ok (.DotsParserNode ln ln2, rest4)
            | .error err => .error err
          else .error (perror input u)
        | [] => .error .internalError
      else .ok (ln, rest)
    | [] => .ok (ln, [])
  | .error err => .error err

/-- `p_main`: `main := lines main | lines`, collected as the top-level
item list. -/
def parseMainItems (input : List Char) : Nat → List Token →
    Except Err (List ParserNode)
  | 0, _ => .error .internalError
  | fuel + 1, toks =>
    match parseLines input toks with
    | .ok (ls, rest) =>
      match rest with
      | [] => .ok [ls]
      | _ :: _ =>
        match parseMainItems input fuel rest with
        | .ok items => .ok (ls :: items)
        | .error err => .error err
    | .error err => .error err

/-- Run the parser (`build_parser(input=pre)` followed by
`parser.parse`): the top-level `main` sequence node. -/
def parseTokens (input : List Char) (toks : List Token) : Except Err ParserNode :=
  match parseMainItems input (toks.length + 1) toks with
  | .ok items => .ok (.SequenceParserNode items)
  | .error e => .error e

/-- The full pipeline on a normalized format string: lex, parse,
analyze (the core of `run`, after the out-of-scope HTML extraction and
`pre.rstrip() + '\n'` normalization). -/
def pipeline (input : List Char) : Except Err FormatNode :=
  match tokenize input with
  | .ok toks =>
    match parseTokens input toks with
    | .ok tree => analyze tree
    | .error e => .error e
  | .error e => .error e

/-- Does the expression mention the variable (does the identifier occur
in the expression string)? -/
def Expr.mentions : Expr → String → Bool
  | .num _, _ => false
  | .var y, x => y = x
  | .add a b, x => a.mentions x || b.mentions x
  | .sub a b, x => a.mentions x || b.mentions x
  | .mul a b, x => a.mentions x || b.mentions x
  | .div a b, x => a.mentions x || b.mentions x

/-- The variable names of a canonical linear form. -/
def Lin.varNames (l : Lin) : List String := l.terms.map Prod.fst

mutual

/-- All expression strings stored in an abstract tree: every item index
and every loop size. -/
def fmtExprs : FormatNode → List Expr
  | .ItemNode _ indices => indices
  | .NewlineNode => []
  | .SequenceNode items => fmtExprsList items
  | .LoopNode size _ body => size :: fmtExprs body

/-- All expression strings of a list of abstract trees. -/
def fmtExprsList : List FormatNode → List Expr
  | [] => []
  | x :: xs => fmtExprs x ++ fmtExprsList xs

end

mutual

/-- The loop counter names of an abstract tree. -/
def loopNamesF : FormatNode → List String
  | .ItemNode _ _ => []
  | .NewlineNode => []
  | .SequenceNode items => loopNamesList items
  | .LoopNode _ name body => name :: loopNamesF body

/-- The loop counter names of a list of abstract trees. -/
def loopNamesList : List FormatNode → List String
  | [] => []
  | x :: xs => loopNamesF x ++ loopNamesList xs

end

mutual

/-- The invariant of the second claim: every loop's size expression
avoids that same loop's counter name. -/
def loopSizesClean : FormatNode → Bool
  | .ItemNode _ _ => true
  | .NewlineNode => true
  | .SequenceNode items => loopSizesCleanList items
  | .LoopNode size name body => !size.mentions name && loopSizesClean body

/-- `loopSizesClean` over a list of trees. -/
def loopSizesCleanList : List FormatNode → Bool
  | [] => true
  | x :: xs => loopSizesClean x && loopSizesCleanList xs

end

mutual

/-- All raw index expression strings occurring in a concrete parse
tree. -/
def pExprs : ParserNode → List Expr
  | .ItemParserNode _ indices => indices
  | .NewlineParserNode => []
  | .SequenceParserNode items => pExprsList items
  | .DotsParserNode first last => pExprs first ++ pExprs last

/-- All raw index expression strings of a list of concrete parse
trees. -/
def pExprsList : List ParserNode → List Expr
  | [] => []
  | x :: xs => pExprs x ++ pExprsList xs

end

mutual

/-- Is every index expression of the tree inside the integer-linear
fragment the symbolic engine decides?  (Loop sizes are only ever compared
as strings by unification, so they are not constrained.) -/
def linOKF : FormatNode → Bool
  | .ItemNode _ indices => indices.all (fun e => (simplify e).isSome)
  | .NewlineNode => true
  | .SequenceNode items => linOKList items
  | .LoopNode _ _ body => linOKF body

/-- `linOKF` over a list of trees. -/
def linOKList : List FormatNode → Bool
  | [] => true
  | x :: xs => linOKF x && linOKList xs

end

mutual

/-- The spec's structural-mismatch conditions for a dots pair, stated
compositionally: a kind mismatch anywhere, an item name or index-arity
mismatch, a sequence arity mismatch, or a nested-loop size or counter
mismatch. -/
def zipMismatch : FormatNode → FormatNode → Bool
  | .ItemNode an ai, .ItemNode bn bi => !(an = bn && ai.length = bi.length)
  | .NewlineNode, .NewlineNode => false
  | .SequenceNode xs, .SequenceNode ys =>
    !(xs.length = ys.length) || zipMismatchList xs ys
  | .LoopNode asize an abody, .LoopNode bsize bn bbody =>
    !(asize = bsize && an = bn) || zipMismatch abody bbody
  | _, _ => true

/-- `zipMismatch` element-wise over two sequences' items (positions
beyond the shorter list cannot mismatch, mirroring `zip`
truncation). -/
def zipMismatchList : List FormatNode → List FormatNode → Bool
  | [], _ => false
  | _ :: _, [] => false
  | x :: xs, y :: ys => zipMismatch x y || zipMismatchList xs ys

end

/-- The trip counts implied by the varying index positions of one item
pair, in order: for each position whose two canonical indices differ, the
canonical form of `last - first + 1`. -/
def strideIdx : List (Expr × Expr) → List Lin
  | [] => []
  | p :: rest =>
    match simplify p.1, simplify p.2, strideOf p.1 p.2 with
    | some li, some lj, some ls =>
      if li = lj then strideIdx rest else ls :: strideIdx rest
    | _, _, _ => strideIdx rest

mutual

/-- The trip counts implied by all varying index positions of a dots
pair, in traversal order. -/
def stridesF : FormatNode → FormatNode → List Lin
  | .ItemNode _ ai, .ItemNode _ bi => strideIdx (ai.zip bi)
  | .SequenceNode xs, .SequenceNode ys => stridesList xs ys
  | .LoopNode _ _ abody, .LoopNode _ _ bbody => stridesF abody bbody
  | _, _ => []

/-- `stridesF` element-wise over two sequences' items. -/
def stridesList : List FormatNode → List FormatNode → List Lin
  | [], _ => []
  | _ :: _, [] => []
  | x :: xs, y :: ys => stridesF x y ++ stridesList xs ys

end

/-- Are all elements of the list equal (do all varying positions imply
one common trip count)? -/
def linAllEq : List Lin → Bool
  | [] => true
  | x :: xs => xs.all (fun y => y = x)

/-- The spec's description of when loop extension succeeds, stated
compositionally: the two trees are structurally congruent (same kinds,
item names and arities, sequence arities, nested-loop sizes and
counters), and at every index position the body's canonical index equals
the candidate's canonical index after substituting the value one step
before the start (`(-1)`) for the loop counter; positions outside the
engine's fragment never succeed. -/
def extIdxOK (loopName : String) (p : Expr × Expr) : Bool :=
  match simplify p.1, simplify (p.2.subst loopName (.num (-1))) with
  | some li, some ld => li = ld
  | _, _ => false

mutual

/-- Structural-congruence-plus-index-equations success condition for
loop extension (see `extIdxOK`). -/
def extOK : FormatNode → FormatNode → String → Bool
  | .ItemNode an ai, .ItemNode bn bi, n =>
    an = bn && ai.length = bi.length && (ai.zip bi).all (extIdxOK n)
  | .NewlineNode, .NewlineNode, _ => true
  | .SequenceNode xs, .SequenceNode ys, n =>
    xs.length = ys.length && extOKList xs ys n
  | .LoopNode asize an abody, .LoopNode bsize bn bbody, n =>
    asize = bsize && an = bn && extOK abody bbody n
  | _, _, _ => false

/-- `extOK` element-wise over two sequences' items. -/
def extOKList : List FormatNode → List FormatNode → String → Bool
  | [], _, _ => true
  | _ :: _, [], _ => true
  | x :: xs, y :: ys, n => extOK x y n && extOKList xs ys n

end

/-- The characters the lexer can consume: every character that can occur
inside some token match or is ignored.  Any character outside this set is
outside the recognized token classes and the ignored set. -/
def lexConsumable (c : Char) : Bool :=
  c.isAlpha || c.isDigit ||
    (c = ' ' || c = '\t' || c = '$' || c = '\r' || c = '\n' || c = '~' || c = '\\' ||
      c = ',' || c = ';' || c = '.' || c = '…' || c = '*' || c = '×' || c = ':' ||
      c = '⋮' || c = '_' || c = '\x7b' || c = '\x7d' || c = '+' || c = '-' || c = '/')

/-- `1 : Lin` (the canonical form of the literal `1`). -/
def linOne : Lin := ⟨1, []⟩


/-- The invariant carried through the lexer loop: a successful result
means every remaining character was consumable; an error reports the
head character of some unconsumed suffix, the line number counting the
newlines consumed before it, and its absolute position. -/
def lexSpecP (cs : List Char) (pos line : Nat) : Except Err (List Token) → Prop
  | .ok _ => ∀ x ∈ cs, lexConsumable x = true
  | .error e => ∃ k ch, k < cs.length ∧ (cs.drop k).head? = some ch ∧
      e = .lexError ch (line + ((cs.take k).count '\n')) (pos + k)

/-- Threading of the running trip count over the list of implied trip
counts, following the spec's words: the first varying position sets the
count, later ones must agree, disagreement fails. -/
def threadLin : Option Lin → List Lin → Option (Option Lin)
  | sz, [] => some sz
  | none, st :: rest => threadLin (some st) rest
  | some z, st :: rest => if st = z then threadLin (some z) rest else none

/-- `sizeOK`: a running trip-count string, when set, is inside the
engine's fragment. -/
def sizeOK : Option Expr → Prop
  | none => True
  | some s => (simplify s).isSome = true

mutual

/-- Scoped well-formedness of an abstract tree: every counter-letter
mentioned by an item index is a counter currently in scope, every loop
counter is a single letter and its size expression does not mention it.
Analyzed trees satisfy this with an empty scope when the input's own
index expressions stay away from the counter letters. -/
def wOK : List String → FormatNode → Prop
  | env, .ItemNode _ indices =>
    ∀ x ∈ counterLetters, ∀ e ∈ indices, e.mentions x = true → x ∈ env
  | _, .NewlineNode => True
  | env, .SequenceNode items => wOKList env items
  | env, .LoopNode size name body =>
    name ∈ counterLetters ∧ size.mentions name = false ∧ wOK (name :: env) body

/-- `wOK` for every tree of a list. -/
def wOKList : List String → List FormatNode → Prop
  | _, [] => True
  | env, x :: xs => wOK env x ∧ wOKList env xs

end


/-- Does any raw index expression of the parse tree mention one of the
counter letters `i`–`z`?  The amended second claim assumes this is
`false`: the analyzer's counter allocation consults only item and loop
names, so a free occurrence of a counter letter inside an index
expression can collide with a freshly allocated counter. -/
def pMentionsCounters (p : ParserNode) : Bool :=
  counterLetters.any (fun x => (pExprs p).any (fun e => e.mentions x))


theorem insertTerm_mem {x : String} {q : Rat} {t : String × Rat} :
    ∀ {l : List (String × Rat)}, t ∈ insertTerm x q l → t.1 = x ∨ t ∈ l
  | [], ht => by
    simp only [insertTerm, List.mem_singleton] at ht
    exact Or.inl (by rw [ht])
  | (y, r) :: rest, ht => by
    simp only [insertTerm] at ht
    by_cases hxy : x < y
    · simp only [if_pos hxy, List.mem_cons] at ht
      rcases ht with h | h | h
      · exact Or.inl (by rw [h])
      · exact Or.inr (by simp [h])
      · exact Or.inr (by simp [h])
    · by_cases hxe : x = y
      · simp only [if_neg hxy, if_pos hxe] at ht
        by_cases hz : q + r = 0
        · rw [if_pos hz] at ht
          exact Or.inr (List.mem_cons_of_mem _ ht)
        · rw [if_neg hz] at ht
          rcases List.mem_cons.mp ht with h | h
          · exact Or.inl (by rw [h])
          · exact Or.inr (List.mem_cons_of_mem _ h)
      · simp only [if_neg hxy, if_neg hxe] at ht
        rcases List.mem_cons.mp ht with h | h
        · exact Or.inr (by simp [h])
        · rcases insertTerm_mem h with h2 | h2
          · exact Or.inl h2
          · exact Or.inr (List.mem_cons_of_mem _ h2)

theorem insertTerm_sorted {x : String} {q : Rat} :
    ∀ {l : List (String × Rat)}, l.Pairwise (fun a b => a.1 < b.1) →
      (insertTerm x q l).Pairwise (fun a b => a.1 < b.1)
  | [], _ => by simp [insertTerm]
  | (y, r) :: rest, hl => by
    rw [List.pairwise_cons] at hl
    by_cases hxy : x < y
    · simp only [insertTerm, if_pos hxy]
      refine List.pairwise_cons.mpr ⟨?_, List.pairwise_cons.mpr hl⟩
      intro t ht
      rcases List.mem_cons.mp ht with h | h
      · rw [h]; exact hxy
      · exact lt_trans hxy (hl.1 t h)
    · by_cases hxe : x = y
      · simp only [insertTerm, if_neg hxy, if_pos hxe]
        by_cases hz : q + r = 0
        · rw [if_pos hz]; exact hl.2
        · rw [if_neg hz]
          exact List.pairwise_cons.mpr ⟨fun t ht => hxe ▸ hl.1 t ht, hl.2⟩
      · simp only [insertTerm, if_neg hxy, if_neg hxe]
        have hyx : y < x := by
          rcases lt_trichotomy x y with h | h | h
          · exact absurd h hxy
          · exact absurd h hxe
          · exact h
        refine List.pairwise_cons.mpr ⟨?_, insertTerm_sorted hl.2⟩
        intro t ht
        rcases insertTerm_mem ht with h | h
        · rw [h]; exact hyx
        · exact hl.1 t h

theorem insertTerm_nonzero {x : String} {q : Rat} (hq : q ≠ 0) :
    ∀ {l : List (String × Rat)}, (∀ t ∈ l, t.2 ≠ 0) →
      ∀ t ∈ insertTerm x q l, t.2 ≠ 0
  | [], _, t, ht => by
    simp only [insertTerm, List.mem_singleton] at ht
    rw [ht]; exact hq
  | (y, r) :: rest, hl, t, ht => by
    simp only [insertTerm] at ht
    by_cases hxy : x < y
    · rw [if_pos hxy] at ht
      rcases List.mem_cons.mp ht with h | h
      · rw [h]; exact hq
      · exact hl t h
    · by_cases hxe : x = y
      · simp only [if_neg hxy, if_pos hxe] at ht
        by_cases hz : q + r = 0
        · rw [if_pos hz] at ht
          exact hl t (List.mem_cons_of_mem _ ht)
        · rw [if_neg hz] at ht
          rcases List.mem_cons.mp ht with h | h
          · rw [h]; exact hz
          · exact hl t (List.mem_cons_of_mem _ h)
      · simp only [if_neg hxy, if_neg hxe] at ht
        rcases List.mem_cons.mp ht with h | h
        · rw [h]; exact hl _ (by simp)
        · exact insertTerm_nonzero hq (fun t ht => hl t (List.mem_cons_of_mem _ ht)) t h

theorem addTerm_sorted {x : String} {q : Rat} {l : List (String × Rat)}
    (hl : l.Pairwise (fun a b => a.1 < b.1)) :
    (addTerm x q l).Pairwise (fun a b => a.1 < b.1) := by
  unfold addTerm
  by_cases hq : q = 0
  · rw [if_pos hq]; exact hl
  · rw [if_neg hq]; exact insertTerm_sorted hl

theorem addTerm_nonzero {x : String} {q : Rat} {l : List (String × Rat)}
    (hl : ∀ t ∈ l, t.2 ≠ 0) : ∀ t ∈ addTerm x q l, t.2 ≠ 0 := by
  unfold addTerm
  by_cases hq : q = 0
  · rw [if_pos hq]; exact hl
  · rw [if_neg hq]; exact insertTerm_nonzero hq hl

theorem foldr_addTerm_norm (ts : List (String × Rat)) {l : List (String × Rat)}
    (hs : l.Pairwise (fun a b => a.1 < b.1)) (hn : ∀ t ∈ l, t.2 ≠ 0) :
    (ts.foldr (fun t l => addTerm t.1 t.2 l) l).Pairwise (fun a b => a.1 < b.1) ∧
      ∀ t ∈ ts.foldr (fun t l => addTerm t.1 t.2 l) l, t.2 ≠ 0 := by
  induction ts with
  | nil => exact ⟨hs, hn⟩
  | cons hd tl ih =>
    simp only [List.foldr_cons]
    exact ⟨addTerm_sorted ih.1, addTerm_nonzero ih.2⟩

theorem Lin.add_norm {a b : Lin} (hb : b.Norm) : (a.add b).Norm := by
  obtain ⟨hs, hn⟩ := foldr_addTerm_norm a.terms hb.1 hb.2
  exact ⟨hs, hn⟩

theorem Lin.scale_norm {a : Lin} (q : Rat) (ha : a.Norm) : (a.scale q).Norm := by
  unfold Lin.scale Lin.Norm
  by_cases hq : q = 0
  · simp [hq]
  · simp only [if_neg hq]
    constructor
    · exact List.pairwise_map.mpr (by simpa using ha.1)
    · intro t ht
      rcases List.mem_map.mp ht with ⟨u, hu, hut⟩
      rw [← hut]
      exact mul_ne_zero hq (ha.2 u hu)

theorem Lin.sub_norm {a b : Lin} (hb : b.Norm) : (a.sub b).Norm :=
  Lin.add_norm (Lin.scale_norm _ hb)

/-- Every canonical form produced by the symbolic engine is
well-formed. -/
theorem simplify_norm : ∀ {e : Expr} {l : Lin}, simplify e = some l → l.Norm
  | .num n, l, h => by
    simp only [simplify, Option.some_inj] at h
    rw [← h]; exact ⟨List.Pairwise.nil, by simp⟩
  | .var x, l, h => by
    simp only [simplify, Option.some_inj] at h
    rw [← h]
    exact ⟨List.pairwise_singleton _ _, by simp⟩
  | .add a b, l, h => by
    rw [simplify] at h
    split at h
    case _ la lb hla hlb =>
      simp only [Option.some_inj] at h
      rw [← h]
      exact Lin.add_norm (simplify_norm hlb)
    case _ => exact absurd h (by simp)
  | .sub a b, l, h => by
    rw [simplify] at h
    split at h
    case _ la lb hla hlb =>
      simp only [Option.some_inj] at h
      rw [← h]
      exact Lin.sub_norm (simplify_norm hlb)
    case _ => exact absurd h (by simp)
  | .mul a b, l, h => by
    rw [simplify] at h
    split at h
    case _ la lb hla hlb =>
      have hna := simplify_norm hla
      have hnb := simplify_norm hlb
      split at h
      · simp only [Option.some_inj] at h
        rw [← h]; exact Lin.scale_norm _ hnb
      · simp only [Option.some_inj] at h
        rw [← h]; exact Lin.scale_norm _ hna
      · exact absurd h (by simp)
    case _ => exact absurd h (by simp)
  | .div a b, l, h => by
    rw [simplify] at h
    split at h
    case _ la lb hla hlb =>
      have hna := simplify_norm hla
      split at h
      · split at h
        · exact absurd h (by simp)
        · simp only [Option.some_inj] at h
          rw [← h]; exact Lin.scale_norm _ hna
      · exact absurd h (by simp)
    case _ => exact absurd h (by simp)

theorem simplify_ratToExpr (q : Rat) : simplify (ratToExpr q) = some ⟨q, []⟩ := by
  unfold ratToExpr
  by_cases hden : q.den = 1
  · rw [if_pos hden]
    simp only [simplify, Option.some_inj]
    congr 1
    have : (q.num : Rat) = (q.num : Rat) / ((q.den : Nat) : Rat) := by
      rw [hden]; simp
    rw [this, Rat.num_div_den]
  · rw [if_neg hden]
    have hdz : ((q.den : Int) : Rat) ≠ 0 := by
      simp only [Int.cast_natCast, ne_eq, Nat.cast_eq_zero]
      exact q.den_nz
    simp only [simplify]
    rw [if_neg hdz]
    simp only [Lin.scale, mul_zero, Option.some_inj, List.map_nil, ite_self, Lin.mk.injEq]
    refine ⟨?_, trivial⟩
    simp only [Int.cast_natCast]
    rw [inv_mul_eq_div, Rat.num_div_den]

theorem simplify_termToExpr (x : String) {q : Rat} (hq : q ≠ 0) :
    simplify (termToExpr x q) = some ⟨0, [(x, q)]⟩ := by
  unfold termToExpr
  by_cases h1 : q = 1
  · rw [if_pos h1, h1]; rfl
  · rw [if_neg h1]
    simp only [simplify, simplify_ratToExpr]
    simp only [Lin.scale, mul_zero, if_neg hq, List.map_cons, List.map_nil, mul_one,
      Option.some_inj]

theorem Lin.add_single {x : String} {q c : Rat} {rest : List (String × Rat)}
    (hq : q ≠ 0) (hlt : ∀ t ∈ rest, x < t.1) :
    Lin.add ⟨0, [(x, q)]⟩ ⟨c, rest⟩ = ⟨c, (x, q) :: rest⟩ := by
  simp only [Lin.add, List.foldr_cons, List.foldr_nil, zero_add]
  congr 1
  rw [addTerm, if_neg hq]
  cases rest with
  | nil => rfl
  | cons hd tl =>
    obtain ⟨y, r⟩ := hd
    simp only [insertTerm, if_pos (hlt (y, r) (by simp))]

/-- Reparsing the canonical print of a well-formed canonical linear form
gives that form back: the sympy print/parse round trip. -/
theorem simplify_toExpr : ∀ {l : Lin}, l.Norm → simplify l.toExpr = some l := by
  intro l h
  obtain ⟨c, terms⟩ := l
  induction terms with
  | nil => simp only [Lin.toExpr, List.foldr_nil, simplify_ratToExpr]
  | cons hd tl ih =>
    obtain ⟨x, q⟩ := hd
    have hq : q ≠ 0 := h.2 (x, q) (by simp)
    have htl : Lin.Norm ⟨c, tl⟩ :=
      ⟨(List.pairwise_cons.mp h.1).2, fun t ht => h.2 t (List.mem_cons_of_mem _ ht)⟩
    have hlt : ∀ t ∈ tl, x < t.1 := fun t ht => (List.pairwise_cons.mp h.1).1 t ht
    show simplify (.add (termToExpr x q) (Lin.toExpr ⟨c, tl⟩)) = _
    simp only [simplify, simplify_termToExpr x hq, ih htl]
    rw [Lin.add_single hq hlt]

/-- `str(simplify(s))` reparses to the same canonical object: the key fact
linking the stored canonical strings to the canonical forms they denote. -/
theorem simplify_of_canonStr {e s : Expr} (h : canonStr e = .ok s) :
    simplify s = simplify e := by
  unfold canonStr at h
  revert h
  match he : simplify e with
  | some l =>
    intro h
    simp only [Except.ok.injEq] at h
    rw [← h]
    exact simplify_toExpr (simplify_norm he)
  | none => intro h; exact absurd h (by simp)

/-- C1: for the input text `"A_1 A_2 ... A_N\n"`, the full pipeline (lex,
parse, analyze) returns a `SequenceNode` whose first element is a
`LoopNode` with trip count canonically equal to `N` and body
`ItemNode(name="A", indices=[counter + 1])`, followed by a `NewlineNode`,
where the loop counter `"i"` differs from both `"A"` and `"N"`. -/
theorem c1_pipeline_of_dots_line :
    pipeline "A_1 A_2 ... A_N\n".data =
      .ok (.SequenceNode
        [.LoopNode (.add (.var "N") (.num 0)) "i"
          (.ItemNode "A" [.add (.var "i") (.num 1)]),
        .NewlineNode]) ∧
    canonicalize (.add (.var "N") (.num 0)) = canonicalize (.var "N") ∧
    ("i" : String) ≠ "A" ∧ ("i" : String) ≠ "N" :=
  ⟨by with_unfolding_all rfl, by with_unfolding_all rfl, by decide, by decide⟩

/-- C10: for the input text consisting of a single newline (an empty
format line), parsing fails with a `ParserError` naming the unexpected
`NEWLINE` token at line 1 column 1: the grammar requires at least one
item before each line break, so a blank input is rejected rather than
producing an empty tree. -/
theorem c10_blank_line_is_parse_error :
    pipeline "\n".data = .error (.parseError "NEWLINE" "\n" 1 1) := by
  with_unfolding_all rfl

/-- C8: canonicalization is idempotent — for every expression string the
symbolic engine accepts, canonicalizing the canonical form again yields
the same canonical form. -/
theorem c8_canonicalize_idempotent (x y : Expr) (h : canonicalize x = some y) :
    canonicalize y = some y := by
  unfold canonicalize at h ⊢
  revert h
  match hx : simplify x with
  | some l =>
    intro h
    simp only [Option.map_some'] at h
    obtain rfl : l.toExpr = y := Option.some_inj.mp h
    rw [simplify_toExpr (simplify_norm hx)]
    rfl
  | none => intro h; exact absurd h (by simp)

/-- Witness for C8 at the concrete accepted expression `N + 2` (its own
canonical print). -/
theorem c8_witness :
    canonicalize (.add (.var "N") (.num 2)) = some (.add (.var "N") (.num 2)) ∧
    canonicalize (.add (.var "N") (.num 2)) = some (.add (.var "N") (.num 2)) :=
  ⟨by with_unfolding_all rfl,
    c8_canonicalize_idempotent (.add (.var "N") (.num 2)) _ (by with_unfolding_all rfl)⟩


theorem zipSizeStep_some {i j s : Expr} {o : Option Expr}
    (h : zipSizeStep i j (some s) = .ok o) : o = some s := by
  simp only [zipSizeStep] at h
  split at h
  · split at h
    · exact (Except.ok.inj h).symm
    · exact Except.noConfusion h
  · exact Except.noConfusion h

theorem zipIndices_threaded {name : String} :
    ∀ {ps : List (Expr × Expr)} {s : Expr} {res : List Expr} {s2 : Option Expr},
      zipIndices name ps (some s) = .ok (res, s2) → s2 = some s
  | [], s, res, s2, h => by
    simp only [zipIndices] at h
    injection h with hp
    injection hp with h1 h2
    exact h2.symm
  | (i, j) :: rest, s, res, s2, h => by
    simp only [zipIndices] at h
    split at h
    · split at h
      · split at h
        · rename_i indices size2 heq
          injection h with hp
          injection hp with h1 h2
          rw [← h2]
          exact zipIndices_threaded heq
        · exact Except.noConfusion h
      · split at h
        · exact Except.noConfusion h
        · rename_i size2 hss
          obtain rfl : size2 = some s := zipSizeStep_some hss
          split at h
          · exact Except.noConfusion h
          · split at h
            · rename_i indices size3 heq
              injection h with hp
              injection hp with h1 h2
              rw [← h2]
              exact zipIndices_threaded heq
            · exact Except.noConfusion h
    · exact Except.noConfusion h

mutual

theorem zipNodesThreadedAux :
    ∀ (a b : FormatNode) (name : String) (s : Expr) (c : FormatNode) (s2 : Option Expr),
      zip_nodes a b name (some s) = .ok (c, s2) → s2 = some s
  | .ItemNode an ai, .ItemNode bn bi, name, s, c, s2 => by
    intro h
    simp only [zip_nodes] at h
    split at h
    · exact Except.noConfusion h
    · split at h
      · rename_i indices size2 heq
        injection h with hp
        injection hp with h1 h2
        rw [← h2]
        exact zipIndices_threaded heq
      · exact Except.noConfusion h
  | .NewlineNode, .NewlineNode, name, s, c, s2 => by
    intro h
    simp only [zip_nodes] at h
    injection h with hp
    injection hp with h1 h2
    exact h2.symm
  | .SequenceNode xs, .SequenceNode ys, name, s, c, s2 => by
    intro h
    simp only [zip_nodes] at h
    split at h
    · exact Except.noConfusion h
    · split at h
      · rename_i items size2 heq
        injection h with hp
        injection hp with h1 h2
        rw [← h2]
        exact zipListThreadedAux xs ys name s items size2 heq
      · exact Except.noConfusion h
  | .LoopNode asize an abody, .LoopNode bsize bn bbody, name, s, c, s2 => by
    intro h
    simp only [zip_nodes] at h
    split at h
    · exact Except.noConfusion h
    · split at h
      · rename_i c2 size2 heq
        injection h with hp
        injection hp with h1 h2
        rw [← h2]
        exact zipNodesThreadedAux abody bbody name s c2 size2 heq
      · exact Except.noConfusion h
  | .ItemNode _ _, .NewlineNode, _, _, _, _ => by
    intro h; simp only [zip_nodes] at h; exact Except.noConfusion h
  | .ItemNode _ _, .SequenceNode _, _, _, _, _ => by
    intro h; simp only [zip_nodes] at h; exact Except.noConfusion h
  | .ItemNode _ _, .LoopNode _ _ _, _, _, _, _ => by
    intro h; simp only [zip_nodes] at h; exact Except.noConfusion h
  | .NewlineNode, .ItemNode _ _, _, _, _, _ => by
    intro h; simp only [zip_nodes] at h; exact Except.noConfusion h
  | .NewlineNode, .SequenceNode _, _, _, _, _ => by
    intro h; simp only [zip_nodes] at h; exact Except.noConfusion h
  | .NewlineNode, .LoopNode _ _ _, _, _, _, _ => by
    intro h; simp only [zip_nodes] at h; exact Except.noConfusion h
  | .SequenceNode _, .ItemNode _ _, _, _, _, _ => by
    intro h; simp only [zip_nodes] at h; exact Except.noConfusion h
  | .SequenceNode _, .NewlineNode, _, _, _, _ => by
    intro h; simp only [zip_nodes] at h; exact Except.noConfusion h
  | .SequenceNode _, .LoopNode _ _ _, _, _, _, _ => by
    intro h; simp only [zip_nodes] at h; exact Except.noConfusion h
  | .LoopNode _ _ _, .ItemNode _ _, _, _, _, _ => by
    intro h; simp only [zip_nodes] at h; exact Except.noConfusion h
  | .LoopNode _ _ _, .NewlineNode, _, _, _, _ => by
    intro h; simp only [zip_nodes] at h; exact Except.noConfusion h
  | .LoopNode _ _ _, .SequenceNode _, _, _, _, _ => by
    intro h; simp only [zip_nodes] at h; exact Except.noConfusion h

theorem zipListThreadedAux :
    ∀ (xs ys : List FormatNode) (name : String) (s : Expr)
      (items : List FormatNode) (s2 : Option Expr),
      zipList xs ys name (some s) = .ok (items, s2) → s2 = some s
  | [], ys, name, s, items, s2 => by
    intro h
    simp only [zipList] at h
    injection h with hp
    injection hp with h1 h2
    exact h2.symm
  | _ :: _, [], name, s, items, s2 => by
    intro h
    simp only [zipList] at h
    injection h with hp
    injection hp with h1 h2
    exact h2.symm
  | x :: xs2, y :: ys2, name, s, items, s2 => by
    intro h
    simp only [zipList] at h
    split at h
    · rename_i c size2 heq
      obtain rfl : size2 = some s := zipNodesThreadedAux x y name s c size2 heq
      split at h
      · rename_i items2 size3 heq2
        injection h with hp
        injection hp with h1 h2
        rw [← h2]
        exact zipListThreadedAux xs2 ys2 name s items2 size3 heq2
      · exact Except.noConfusion h
    · exact Except.noConfusion h

end

/-- C9: once the running trip count is set, unification threads exactly
that trip count through every recursive call: unifying with an
already-set count either raises `SyntaxError` or returns the very same
count. -/
theorem c9_size_threaded {a b : FormatNode} {name : String} {s : Expr}
    {c : FormatNode} {s2 : Option Expr}
    (h : zip_nodes a b name (some s) = .ok (c, s2)) : s2 = some s :=
  zipNodesThreadedAux a b name s c s2 h

/-- Witness for C9 at a concrete pair with the trip count pre-set to
`N`. -/
theorem c9_witness :
    zip_nodes (.ItemNode "A" [.num 1]) (.ItemNode "A" [.var "N"]) "i"
        (some (.var "N")) =
      .ok (.ItemNode "A" [.add (.var "i") (.num 1)], some (.var "N")) ∧
    (some (Expr.var "N") : Option Expr) = some (.var "N") :=
  ⟨by with_unfolding_all rfl,
    @c9_size_threaded (.ItemNode "A" [.num 1]) (.ItemNode "A" [.var "N"]) "i"
      (.var "N") (.ItemNode "A" [.add (.var "i") (.num 1)]) (some (.var "N"))
      (by with_unfolding_all rfl)⟩

theorem simplify_add_var {i : Expr} {li : Lin} (n : String)
    (hi : simplify i = some li) :
    simplify (Expr.add i (Expr.var n)) = some (li.add ⟨0, [(n, 1)]⟩) := by
  simp only [simplify, hi]

theorem extendIndices_isSome (n : String) :
    ∀ ps : List (Expr × Expr), (extendIndices n ps).isSome = ps.all (extIdxOK n)
  | [] => by simp [extendIndices]
  | (i, j) :: rest => by
    cases hi : simplify i with
    | none => simp [extendIndices, extIdxOK, hi]
    | some li =>
      cases hd : simplify (j.subst n (.num (-1))) with
      | none => simp [extendIndices, extIdxOK, hi, hd]
      | some ld =>
        by_cases he : li = ld
        · subst he
          have hall := extendIndices_isSome n rest
          cases hrest : extendIndices n rest with
          | some idx =>
            rw [hrest] at hall
            simp [extendIndices, extIdxOK, hi, hd, simplify_add_var n hi, hrest, ← hall]
          | none =>
            rw [hrest] at hall
            simp [extendIndices, extIdxOK, hi, hd, simplify_add_var n hi, hrest, ← hall]
        · simp [extendIndices, extIdxOK, hi, hd, he]

mutual

theorem extNodeAux : ∀ (a b : FormatNode) (n : String),
    (exnted_loop_node a b n).isSome = extOK a b n
  | .ItemNode an ai, .ItemNode bn bi, n => by
    simp only [exnted_loop_node, extOK]
    by_cases hc : an ≠ bn ∨ ai.length ≠ bi.length
    · rw [if_pos hc]
      rcases hc with hc | hc
      · simp [hc]
      · simp [hc]
    · rw [if_neg hc]
      push_neg at hc
      obtain ⟨h1, h2⟩ := hc
      have hall := extendIndices_isSome n (ai.zip bi)
      cases he : extendIndices n (ai.zip bi) with
      | some idx => rw [he] at hall; simp [h1, h2, ← hall]
      | none => rw [he] at hall; simp [h1, h2, ← hall]
  | .NewlineNode, .NewlineNode, n => by
    simp [exnted_loop_node, extOK]
  | .SequenceNode xs, .SequenceNode ys, n => by
    simp only [exnted_loop_node, extOK]
    by_cases hc : xs.length ≠ ys.length
    · rw [if_pos hc]
      simp [hc]
    · rw [if_neg hc]
      push_neg at hc
      have hall := extListAux xs ys n
      cases he : extendList xs ys n with
      | some items => rw [he] at hall; simp [hc, ← hall]
      | none => rw [he] at hall; simp [hc, ← hall]
  | .LoopNode asize an abody, .LoopNode bsize bn bbody, n => by
    simp only [exnted_loop_node, extOK]
    by_cases hc : asize ≠ bsize ∨ an ≠ bn
    · rw [if_pos hc]
      rcases hc with hc | hc
      · simp [hc]
      · simp [hc]
    · rw [if_neg hc]
      push_neg at hc
      obtain ⟨h1, h2⟩ := hc
      have hall := extNodeAux abody bbody n
      cases he : exnted_loop_node abody bbody n with
      | some c => rw [he] at hall; simp [h1, h2, ← hall]
      | none => rw [he] at hall; simp [h1, h2, ← hall]
  | .ItemNode _ _, .NewlineNode, _ => by simp [exnted_loop_node, extOK]
  | .ItemNode _ _, .SequenceNode _, _ => by simp [exnted_loop_node, extOK]
  | .ItemNode _ _, .LoopNode _ _ _, _ => by simp [exnted_loop_node, extOK]
  | .NewlineNode, .ItemNode _ _, _ => by simp [exnted_loop_node, extOK]
  | .NewlineNode, .SequenceNode _, _ => by simp [exnted_loop_node, extOK]
  | .NewlineNode, .LoopNode _ _ _, _ => by simp [exnted_loop_node, extOK]
  | .SequenceNode _, .ItemNode _ _, _ => by simp [exnted_loop_node, extOK]
  | .SequenceNode _, .NewlineNode, _ => by simp [exnted_loop_node, extOK]
  | .SequenceNode _, .LoopNode _ _ _, _ => by simp [exnted_loop_node, extOK]
  | .LoopNode _ _ _, .ItemNode _ _, _ => by simp [exnted_loop_node, extOK]
  | .LoopNode _ _ _, .NewlineNode, _ => by simp [exnted_loop_node, extOK]
  | .LoopNode _ _ _, .SequenceNode _, _ => by simp [exnted_loop_node, extOK]

theorem extListAux : ∀ (xs ys : List FormatNode) (n : String),
    (extendList xs ys n).isSome = extOKList xs ys n
  | [], _, n => by simp [extendList, extOKList]
  | _ :: _, [], n => by simp [extendList, extOKList]
  | x :: xs2, y :: ys2, n => by
    simp only [extendList, extOKList]
    have h1 := extNodeAux x y n
    cases he : exnted_loop_node x y n with
    | some c =>
      rw [he] at h1
      have h2 := extListAux xs2 ys2 n
      cases he2 : extendList xs2 ys2 n with
      | some items => rw [he2] at h2; simp [← h1, ← h2]
      | none => rw [he2] at h2; simp [← h1, ← h2]
    | none =>
      rw [he] at h1
      simp [← h1]

end

/-- C5: loop extension is total and all-or-nothing — for every pair of
trees it returns a fully merged reindexed body exactly when the spec's
structural-congruence-plus-index-equations condition holds, and the
distinct no-match outcome (`none`, a normal control-flow result, never a
`LexerError`/`ParserError`/`SyntaxError` and never a partially merged
tree) on any kind, name, arity, nested-loop or symbolic index
mismatch. -/
theorem c5_extension_iff_spec (a b : FormatNode) (loopName : String) :
    (exnted_loop_node a b loopName).isSome = extOK a b loopName :=
  extNodeAux a b loopName

theorem dotsUnify_ok_shape {a b : FormatNode} {name : String} {t : FormatNode}
    (h : dotsUnify a b name = .ok t) :
    ∃ s c, t = .LoopNode s name c := by
  unfold dotsUnify at h
  split at h
  · exact Except.noConfusion h
  · exact Except.noConfusion h
  · rename_i c s heq
    exact ⟨s, c, (Except.ok.inj h).symm⟩

/-- C6: for every dots pair processed by `analyze`, the allocated loop
counter is disjoint from every item name and loop counter occurring in
either analyzed operand, is a single letter of the `i`–`z` namespace, and
is the first such letter not already taken (allocation scans from `i`);
when the whole namespace is taken the analysis fails with an internal
error (the source's `assert name != 'z'`), not one of the three boundary
errors. -/
theorem c6_fresh_counter (f l : ParserNode) (a b : FormatNode)
    (ha : analyze f = .ok a) (hb : analyze l = .ok b) :
    (∀ t, analyze (.DotsParserNode f l) = .ok t →
      ∃ s n body, t = .LoopNode s n body ∧
        n ∉ list_used_names a ++ list_used_names b ∧
        n ∈ counterLetters ∧
        ∃ pre post, counterLetters = pre ++ n :: post ∧
          ∀ m ∈ pre, m ∈ list_used_names a ++ list_used_names b) ∧
    ((∀ m ∈ counterLetters, m ∈ list_used_names a ++ list_used_names b) →
      analyze (.DotsParserNode f l) = .error .internalError) := by
  constructor
  · intro t ht
    simp only [analyze, ha, hb] at ht
    revert ht
    cases hf : freshCounterName (list_used_names a ++ list_used_names b) with
    | none => intro ht; exact Except.noConfusion ht
    | some name =>
      intro ht
      obtain ⟨s, c, rfl⟩ := dotsUnify_ok_shape ht
      refine ⟨s, name, c, rfl, ?_, ?_, ?_⟩
      · have hp := List.find?_some hf
        simp only [Bool.not_eq_true'] at hp
        intro hmem
        have helem : (list_used_names a ++ list_used_names b).contains name = true :=
          List.elem_eq_true_of_mem hmem
        rw [hp] at helem
        exact Bool.noConfusion helem
      · exact List.mem_of_find?_eq_some hf
      · obtain ⟨hp, pre, post, hsplit, hall⟩ := List.find?_eq_some.mp hf
        refine ⟨pre, post, hsplit, ?_⟩
        intro m hm
        have := hall m hm
        simp only [Bool.not_not, Bool.not_eq_true'] at this
        exact List.mem_of_elem_eq_true (by simpa using this)
  · intro hall
    have hf : freshCounterName (list_used_names a ++ list_used_names b) = none := by
      rw [freshCounterName, List.find?_eq_none]
      intro x hx
      have : (list_used_names a ++ list_used_names b).contains x = true :=
        List.elem_eq_true_of_mem (hall x hx)
      simp only [this, Bool.not_true, Bool.false_eq_true, not_false_eq_true]
    simp only [analyze, ha, hb, hf]

/-- Witness for C6 at a concrete dots pair whose item names already use
`i` and `j`: the allocated counter (`"k"`) is chosen outside the used
names, inside the letter namespace. -/
theorem c6_witness :
    ("k" : String) ∉
      list_used_names (.SequenceNode [.ItemNode "i" [.num 1], .ItemNode "j" [.num 1]]) ++
        list_used_names (.SequenceNode
          [.ItemNode "i" [.add (.var "N") (.num 0)], .ItemNode "j" [.add (.var "N") (.num 0)]]) ∧
    ("k" : String) ∈ counterLetters := by
  obtain ⟨s, n, body, ht, hn, hmem, _⟩ :=
    (c6_fresh_counter
        (.SequenceParserNode [.ItemParserNode "i" [.num 1], .ItemParserNode "j" [.num 1]])
        (.SequenceParserNode [.ItemParserNode "i" [.var "N"], .ItemParserNode "j" [.var "N"]])
        (.SequenceNode [.ItemNode "i" [.num 1], .ItemNode "j" [.num 1]])
        (.SequenceNode
          [.ItemNode "i" [.add (.var "N") (.num 0)], .ItemNode "j" [.add (.var "N") (.num 0)]])
        (by with_unfolding_all rfl) (by with_unfolding_all rfl)).1
      (.LoopNode (.add (.var "N") (.num 0)) "k"
        (.SequenceNode
          [.ItemNode "i" [.add (.var "k") (.num 1)],
            .ItemNode "j" [.add (.var "k") (.num 1)]]))
      (by with_unfolding_all rfl)
  injection ht with hs hname hbody
  rw [hname]
  exact ⟨hn, hmem⟩

theorem linOne_norm : linOne.Norm := by
  constructor
  · simp [linOne]
  · simp [linOne]

theorem simplify_num_one : simplify (Expr.num 1) = some linOne := by
  simp [simplify, linOne]

theorem simplify_add_one {s : Expr} {ls : Lin} (hls : simplify s = some ls) :
    simplify (Expr.add s (Expr.num 1)) = some (ls.add linOne) := by
  simp only [simplify, hls]
  norm_num [linOne]

theorem canonStr_add_one {s : Expr} {ls : Lin} (hls : simplify s = some ls) :
    canonStr (Expr.add s (Expr.num 1)) = .ok (Lin.toExpr (ls.add linOne)) := by
  unfold canonStr
  rw [simplify_add_one hls]

/-- C4: when the flattening loop meets a loop with accumulated preceding
siblings and the trailing sibling group (as selected by `splitTail`: one
sibling, or the body's arity many) extends the loop body, the group is
absorbed, the trip count is incremented by exactly one, and the grown
loop is re-queued — so that a second structurally consistent trailing
group is absorbed again, incrementing the trip count once more. -/
theorem c4_two_extensions (fuel : Nat) (items que : List FormatNode) (s : Expr)
    (ls : Lin) (n : String) (b b1 b2 : FormatNode)
    (hne : items.isEmpty = false)
    (hls : simplify s = some ls)
    (hext1 : exnted_loop_node (splitTail items b).2 b n = some b1)
    (hne2 : ((splitTail items b).1).isEmpty = false)
    (hext2 : exnted_loop_node (splitTail (splitTail items b).1 b1).2 b1 n = some b2) :
    flattenGo (fuel + 2) items (.LoopNode s n b :: que) =
      flattenGo (fuel + 1) (splitTail items b).1
        (.LoopNode (Lin.toExpr (ls.add linOne)) n b1 :: que) ∧
    flattenGo (fuel + 1) (splitTail items b).1
        (.LoopNode (Lin.toExpr (ls.add linOne)) n b1 :: que) =
      flattenGo fuel (splitTail (splitTail items b).1 b1).1
        (.LoopNode (Lin.toExpr ((ls.add linOne).add linOne)) n b2 :: que) ∧
    simplify (Lin.toExpr (ls.add linOne)) = some (ls.add linOne) := by
  have hround : simplify (Lin.toExpr (ls.add linOne)) = some (ls.add linOne) :=
    simplify_toExpr (Lin.add_norm linOne_norm)
  refine ⟨?_, ?_, hround⟩
  · show flattenGo (fuel + 1 + 1) items (.LoopNode s n b :: que) = _
    rcases hsp : splitTail items b with ⟨init, tail⟩
    rw [hsp] at hext1
    simp only at hext1
    simp only [flattenGo, hne, Bool.false_eq_true, if_false, hsp, hext1,
      canonStr_add_one hls]
  · rcases hsp : splitTail items b with ⟨init, tail⟩
    rw [hsp] at hne2 hext2
    simp only at hne2 hext2
    rcases hsp2 : splitTail init b1 with ⟨init2, tail2⟩
    rw [hsp2] at hext2
    simp only at hext2
    show flattenGo (fuel + 1) init (.LoopNode (Lin.toExpr (ls.add linOne)) n b1 :: que) = _
    simp only [flattenGo, hne2, Bool.false_eq_true, if_false, hsp2, hext2,
      canonStr_add_one hround, hsp]

/-- Witness for C4: `A_1 A_2` accumulated before the loop inferred from
`A_3 ... A_N` (trip count `N - 2`): the first absorption increments to
`N - 1`, the second to `N`. -/
theorem c4_witness :
    (flattenGo 2 [.ItemNode "A" [.num 1], .ItemNode "A" [.num 2]]
        [.LoopNode (.add (.var "N") (.num (-2))) "i"
          (.ItemNode "A" [.add (.var "i") (.num 3)])] =
      flattenGo 1
        (splitTail [.ItemNode "A" [.num 1], .ItemNode "A" [.num 2]]
          (.ItemNode "A" [.add (.var "i") (.num 3)])).1
        [.LoopNode (Lin.toExpr (Lin.add ⟨-2, [("N", 1)]⟩ linOne)) "i"
          (.ItemNode "A" [.add (.var "i") (.num 2)])]) ∧
    (flattenGo 1
        (splitTail [.ItemNode "A" [.num 1], .ItemNode "A" [.num 2]]
          (.ItemNode "A" [.add (.var "i") (.num 3)])).1
        [.LoopNode (Lin.toExpr (Lin.add ⟨-2, [("N", 1)]⟩ linOne)) "i"
          (.ItemNode "A" [.add (.var "i") (.num 2)])] =
      flattenGo 0
        (splitTail
          (splitTail [.ItemNode "A" [.num 1], .ItemNode "A" [.num 2]]
            (.ItemNode "A" [.add (.var "i") (.num 3)])).1
          (.ItemNode "A" [.add (.var "i") (.num 2)])).1
        [.LoopNode (Lin.toExpr (Lin.add (Lin.add ⟨-2, [("N", 1)]⟩ linOne) linOne)) "i"
          (.ItemNode "A" [.add (.var "i") (.num 1)])]) ∧
    simplify (Lin.toExpr (Lin.add ⟨-2, [("N", 1)]⟩ linOne)) =
      some (Lin.add ⟨-2, [("N", 1)]⟩ linOne) :=
  c4_two_extensions 0 [.ItemNode "A" [.num 1], .ItemNode "A" [.num 2]] []
    (.add (.var "N") (.num (-2))) ⟨-2, [("N", 1)]⟩ "i"
    (.ItemNode "A" [.add (.var "i") (.num 3)])
    (.ItemNode "A" [.add (.var "i") (.num 2)])
    (.ItemNode "A" [.add (.var "i") (.num 1)])
    (by with_unfolding_all rfl)
    (by with_unfolding_all decide)
    (by with_unfolding_all rfl)
    (by with_unfolding_all rfl)
    (by with_unfolding_all rfl)

theorem take_length_takeWhile (p : Char → Bool) :
    ∀ l : List Char, l.take (l.takeWhile p).length = l.takeWhile p
  | [] => rfl
  | x :: xs => by
    by_cases h : p x <;>
      simp [List.takeWhile_cons, h, take_length_takeWhile p xs]

theorem take_add_app (l : List Char) (d k : Nat) :
    l.take (d + k) = l.take d ++ (l.drop d).take k := by
  rw [List.take_drop]
  conv_lhs => rw [← List.take_append_drop d (l.take (d + k))]
  congr 1
  rw [List.take_take]
  congr 1
  omega

theorem lexSpecP_emit {cs : List Char} {pos line : Nat} (t : Token)
    {R : Except Err (List Token)} (h : lexSpecP cs pos line R) :
    lexSpecP cs pos line (emitTok t R) := by
  cases R with
  | ok ts => exact h
  | error e => exact h

theorem lexSpecP_lift {cs : List Char} {pos line : Nat} (d : Nat)
    (hcons : ∀ x ∈ cs.take d, lexConsumable x = true)
    {R : Except Err (List Token)}
    (hr : lexSpecP (cs.drop d) (pos + d) (line + ((cs.take d).count '\n')) R) :
    lexSpecP cs pos line R := by
  cases R with
  | ok ts =>
    intro x hx
    rw [← List.take_append_drop d cs] at hx
    rcases List.mem_append.mp hx with h | h
    · exact hcons x h
    · exact hr x h
  | error e =>
    obtain ⟨k, ch, hk, hch, he⟩ := hr
    refine ⟨d + k, ch, ?_, ?_, ?_⟩
    · rw [List.length_drop] at hk
      omega
    · rw [List.drop_drop] at hch
      exact hch
    · rw [he]
      have hcount : (cs.take (d + k)).count '\n'
          = (cs.take d).count '\n' + ((cs.drop d).take k).count '\n' := by
        rw [take_add_app, List.count_append]
      congr 1
      · omega
      · omega

set_option maxHeartbeats 1600000 in
theorem lexGo_spec : ∀ (fuel : Nat) (cs : List Char) (pos line : Nat),
    cs.length < fuel → lexSpecP cs pos line (lexGo fuel cs pos line) := by
  intro fuel
  induction fuel with
  | zero => intro cs pos line hlen; omega
  | succ fuel ih =>
    intro cs pos line hlen
    cases cs with
    | nil => intro x hx; cases hx
    | cons c rest =>
      have hlen2 : rest.length < fuel := by
        simp only [List.length_cons] at hlen; omega
      rw [lexGo]
      by_cases h1 : (c = ' ' || c = '\t' || c = '$') = true
      · rw [if_pos h1]
        rcases (show (c = ' ' ∨ c = '\t') ∨ c = '$' by simpa using h1) with (rfl | rfl) | rfl <;>
          exact lexSpecP_lift 1 (by intro x hx; simp at hx; subst hx; decide)
            (ih rest (pos + 1) line hlen2)
      rw [if_neg h1]
      by_cases h2 : c = '\r'
      · rw [if_pos h2]
        subst h2
        by_cases h2b : rest.head? = some '\n'
        · rw [if_pos h2b]
          obtain ⟨rd, rfl⟩ := List.head?_eq_some_iff.mp h2b
          have hlen3 : rd.length < fuel := by
            simp only [List.length_cons] at hlen2; omega
          exact lexSpecP_emit _ (lexSpecP_lift 2
            (by intro x hx; simp at hx; rcases hx with rfl | rfl <;> decide)
            (ih rd (pos + 2) (line + 1) hlen3))
        · rw [if_neg h2b]
          exact ⟨0, '\r', by simp, rfl, by simp⟩
      rw [if_neg h2]
      by_cases h3 : c = '\n'
      · rw [if_pos h3]
        subst h3
        exact lexSpecP_emit _ (lexSpecP_lift 1
          (by intro x hx; simp at hx; subst hx; decide)
          (ih rest (pos + 1) (line + 1) hlen2))
      rw [if_neg h3]
      by_cases h4 : c = '~'
      · rw [if_pos h4]
        subst h4
        exact lexSpecP_lift 1 (by intro x hx; simp at hx; subst hx; decide)
          (ih rest (pos + 1) line hlen2)
      rw [if_neg h4]
      by_cases h5 : c = '\\'
      · rw [if_pos h5]
        subst h5
        by_cases h5a : (rest.head? = some ' ' || rest.head? = some ',' || rest.head? = some ';') = true
        · rw [if_pos h5a]
          cases rest with
          | nil => simp at h5a
          | cons d rd =>
            have hlen3 : rd.length < fuel := by
              simp only [List.length_cons] at hlen2; omega
            rcases (show (d = ' ' ∨ d = ',') ∨ d = ';' by simpa using h5a) with (rfl | rfl) | rfl <;>
              exact lexSpecP_lift 2
                (by intro x hx; simp at hx; rcases hx with rfl | rfl <;> decide)
                (ih rd (pos + 2) line hlen3)
        rw [if_neg h5a]
        by_cases h5b : rest.take 4 = ['d', 'o', 't', 's']
        · rw [if_pos h5b]
          refine lexSpecP_emit _ (lexSpecP_lift 5 ?_ ?_)
          · intro x hx
            rw [List.take_succ_cons, h5b] at hx
            simp at hx
            rcases hx with rfl | rfl | rfl | rfl | rfl <;> decide
          · have hcnt : ((('\\' : Char) :: rest).take 5).count '\n' = 0 := by
              rw [List.take_succ_cons, h5b]; decide
            rw [hcnt, Nat.add_zero]
            exact ih _ _ _ (by simp only [List.length_drop]; omega)
        rw [if_neg h5b]
        by_cases h5c : rest.take 5 = ['l', 'd', 'o', 't', 's']
        · rw [if_pos h5c]
          refine lexSpecP_emit _ (lexSpecP_lift 6 ?_ ?_)
          · intro x hx
            rw [List.take_succ_cons, h5c] at hx
            simp at hx
            rcases hx with rfl | rfl | rfl | rfl | rfl | rfl <;> decide
          · have hcnt : ((('\\' : Char) :: rest).take 6).count '\n' = 0 := by
              rw [List.take_succ_cons, h5c]; decide
            rw [hcnt, Nat.add_zero]
            exact ih _ _ _ (by simp only [List.length_drop]; omega)
        rw [if_neg h5c]
        by_cases h5d : rest.take 5 = ['c', 'd', 'o', 't', 's']
        · rw [if_pos h5d]
          refine lexSpecP_emit _ (lexSpecP_lift 6 ?_ ?_)
          · intro x hx
            rw [List.take_succ_cons, h5d] at hx
            simp at hx
            rcases hx with rfl | rfl | rfl | rfl | rfl | rfl <;> decide
          · have hcnt : ((('\\' : Char) :: rest).take 6).count '\n' = 0 := by
              rw [List.take_succ_cons, h5d]; decide
            rw [hcnt, Nat.add_zero]
            exact ih _ _ _ (by simp only [List.length_drop]; omega)
        rw [if_neg h5d]
        by_cases h5e : rest.take 5 = ['t', 'i', 'm', 'e', 's']
        · rw [if_pos h5e]
          refine lexSpecP_emit _ (lexSpecP_lift 6 ?_ ?_)
          · intro x hx
            rw [List.take_succ_cons, h5e] at hx
            simp at hx
            rcases hx with rfl | rfl | rfl | rfl | rfl | rfl <;> decide
          · have hcnt : ((('\\' : Char) :: rest).take 6).count '\n' = 0 := by
              rw [List.take_succ_cons, h5e]; decide
            rw [hcnt, Nat.add_zero]
            exact ih _ _ _ (by simp only [List.length_drop]; omega)
        rw [if_neg h5e]
        by_cases h5f : rest.take 5 = ['v', 'd', 'o', 't', 's']
        · rw [if_pos h5f]
          refine lexSpecP_emit _ (lexSpecP_lift 6 ?_ ?_)
          · intro x hx
            rw [List.take_succ_cons, h5f] at hx
            simp at hx
            rcases hx with rfl | rfl | rfl | rfl | rfl | rfl <;> decide
          · have hcnt : ((('\\' : Char) :: rest).take 6).count '\n' = 0 := by
              rw [List.take_succ_cons, h5f]; decide
            rw [hcnt, Nat.add_zero]
            exact ih _ _ _ (by simp only [List.length_drop]; omega)
        rw [if_neg h5f]
        exact ⟨0, '\\', by simp, rfl, by simp⟩
      rw [if_neg h5]
      by_cases h6 : c = '.'
      · rw [if_pos h6]
        subst h6
        by_cases h6a : rest.head? = some '.'
        · rw [if_pos h6a]
          obtain ⟨rd, rfl⟩ := List.head?_eq_some_iff.mp h6a
          have hlen3 : (rd.drop (rd.takeWhile (fun d => d = '.')).length).length < fuel := by
            simp only [List.length_cons] at hlen2
            simp only [List.length_drop]
            omega
          have htake : (('.' : Char) :: '.' :: rd).take
                ((rd.takeWhile (fun d => d = '.')).length + 2)
              = '.' :: '.' :: rd.take (rd.takeWhile (fun d => d = '.')).length := rfl
          refine lexSpecP_emit _
            (lexSpecP_lift ((rd.takeWhile (fun d => d = '.')).length + 2) ?_ ?_)
          · intro x hx
            rw [htake, take_length_takeWhile] at hx
            simp only [List.mem_cons] at hx
            rcases hx with rfl | rfl | hmem
            · decide
            · decide
            · have := List.mem_takeWhile_imp hmem
              have hx2 : x = '.' := by simpa using this
              subst hx2; decide
          · have hcnt : ((('.' : Char) :: '.' :: rd).take
                ((rd.takeWhile (fun d => d = '.')).length + 2)).count '\n' = 0 := by
              rw [htake, take_length_takeWhile]
              simp only [List.count_cons]
              rw [List.count_eq_zero.mpr]
              · decide
              · intro hmem
                have := List.mem_takeWhile_imp hmem
                simp at this
            rw [hcnt, Nat.add_zero]
            have hpos : pos + ((rd.takeWhile (fun d => d = '.')).length + 2)
                = pos + 2 + (rd.takeWhile (fun d => d = '.')).length := by omega
            rw [hpos]
            exact ih _ _ _ hlen3
        · rw [if_neg h6a]
          exact ⟨0, '.', by simp, rfl, by simp⟩
      rw [if_neg h6]
      by_cases h7 : c = '…'
      · rw [if_pos h7]
        subst h7
        exact lexSpecP_emit _ (lexSpecP_lift 1
          (by intro x hx; simp at hx; subst hx; decide)
          (ih rest (pos + 1) line hlen2))
      rw [if_neg h7]
      by_cases h8 : c = '*'
      · rw [if_pos h8]
        subst h8
        exact lexSpecP_emit _ (lexSpecP_lift 1
          (by intro x hx; simp at hx; subst hx; decide)
          (ih rest (pos + 1) line hlen2))
      rw [if_neg h8]
      by_cases h9 : c = '×'
      · rw [if_pos h9]
        subst h9
        exact lexSpecP_emit _ (lexSpecP_lift 1
          (by intro x hx; simp at hx; subst hx; decide)
          (ih rest (pos + 1) line hlen2))
      rw [if_neg h9]
      by_cases h10 : c = ':'
      · rw [if_pos h10]
        subst h10
        exact lexSpecP_emit _ (lexSpecP_lift 1
          (by intro x hx; simp at hx; subst hx; decide)
          (ih rest (pos + 1) line hlen2))
      rw [if_neg h10]
      by_cases h11 : c = '⋮'
      · rw [if_pos h11]
        subst h11
        exact lexSpecP_emit _ (lexSpecP_lift 1
          (by intro x hx; simp at hx; subst hx; decide)
          (ih rest (pos + 1) line hlen2))
      rw [if_neg h11]
      by_cases hA : c.isAlpha = true
      · rw [if_pos hA]
        have hrun : 1 ≤ ((c :: rest).takeWhile Char.isAlpha).length := by
          rw [List.takeWhile_cons, if_pos hA]
          simp
        refine lexSpecP_emit _
          (lexSpecP_lift ((c :: rest).takeWhile Char.isAlpha).length ?_ ?_)
        · intro x hx
          rw [take_length_takeWhile] at hx
          have := List.mem_takeWhile_imp hx
          simp [lexConsumable, this]
        · have hcnt : (((c :: rest)).take ((c :: rest).takeWhile Char.isAlpha).length).count '\n'
              = 0 := by
            rw [take_length_takeWhile, List.count_eq_zero]
            intro hmem
            have := List.mem_takeWhile_imp hmem
            exact absurd this (by decide)
          rw [hcnt, Nat.add_zero]
          refine ih _ _ _ ?_
          simp only [List.length_drop, List.length_cons]
          omega
      rw [if_neg hA]
      by_cases hD : c.isDigit = true
      · rw [if_pos hD]
        have hrun : 1 ≤ ((c :: rest).takeWhile Char.isDigit).length := by
          rw [List.takeWhile_cons, if_pos hD]
          simp
        refine lexSpecP_emit _
          (lexSpecP_lift ((c :: rest).takeWhile Char.isDigit).length ?_ ?_)
        · intro x hx
          rw [take_length_takeWhile] at hx
          have := List.mem_takeWhile_imp hx
          simp [lexConsumable, this]
        · have hcnt : (((c :: rest)).take ((c :: rest).takeWhile Char.isDigit).length).count '\n'
              = 0 := by
            rw [take_length_takeWhile, List.count_eq_zero]
            intro hmem
            have := List.mem_takeWhile_imp hmem
            exact absurd this (by decide)
          rw [hcnt, Nat.add_zero]
          refine ih _ _ _ ?_
          simp only [List.length_drop, List.length_cons]
          omega
      rw [if_neg hD]
      by_cases h14 : c = '_'
      · rw [if_pos h14]
        subst h14
        exact lexSpecP_emit _ (lexSpecP_lift 1
          (by intro x hx; simp at hx; subst hx; decide)
          (ih rest (pos + 1) line hlen2))
      rw [if_neg h14]
      by_cases h15 : c = '\x7b'
      · rw [if_pos h15]
        subst h15
        exact lexSpecP_emit _ (lexSpecP_lift 1
          (by intro x hx; simp at hx; subst hx; decide)
          (ih rest (pos + 1) line hlen2))
      rw [if_neg h15]
      by_cases h16 : c = '\x7d'
      · rw [if_pos h16]
        subst h16
        exact lexSpecP_emit _ (lexSpecP_lift 1
          (by intro x hx; simp at hx; subst hx; decide)
          (ih rest (pos + 1) line hlen2))
      rw [if_neg h16]
      by_cases h17 : c = ','
      · rw [if_pos h17]
        subst h17
        exact lexSpecP_emit _ (lexSpecP_lift 1
          (by intro x hx; simp at hx; subst hx; decide)
          (ih rest (pos + 1) line hlen2))
      rw [if_neg h17]
      by_cases h18 : c = '+'
      · rw [if_pos h18]
        subst h18
        exact lexSpecP_emit _ (lexSpecP_lift 1
          (by intro x hx; simp at hx; subst hx; decide)
          (ih rest (pos + 1) line hlen2))
      rw [if_neg h18]
      by_cases h19 : c = '-'
      · rw [if_pos h19]
        subst h19
        exact lexSpecP_emit _ (lexSpecP_lift 1
          (by intro x hx; simp at hx; subst hx; decide)
          (ih rest (pos + 1) line hlen2))
      rw [if_neg h19]
      by_cases h20 : c = '/'
      · rw [if_pos h20]
        subst h20
        exact lexSpecP_emit _ (lexSpecP_lift 1
          (by intro x hx; simp at hx; subst hx; decide)
          (ih rest (pos + 1) line hlen2))
      rw [if_neg h20]
      exact ⟨0, c, by simp, rfl, by simp⟩

/-- C7 (amended): for every input containing a character outside the
recognized token classes and the ignored set, lexing fails with a
`LexerError` carrying the offending character (the first character the
lexer cannot consume), its 1-based line number, and — as the value the
source reports as "column" — its 0-based absolute offset in the input. -/
theorem c7_lex_error_on_bad_char (input : List Char)
    (hbad : ∃ c ∈ input, lexConsumable c = false) :
    ∃ k ch, tokenize input = .error (.lexError ch (1 + ((input.take k).count '\n')) k) ∧
      k < input.length ∧ (input.drop k).head? = some ch := by
  have hs := lexGo_spec (input.length + 1) input 0 1 (by omega)
  revert hs
  unfold tokenize
  cases hres : lexGo (input.length + 1) input 0 1 with
  | ok ts =>
    intro hs
    obtain ⟨c, hc, hbad2⟩ := hbad
    have hcons := hs c hc
    rw [hcons] at hbad2
    exact Bool.noConfusion hbad2
  | error e =>
    intro hs
    obtain ⟨k, ch, hk, hch, he⟩ := hs
    exact ⟨k, ch, by rw [he, Nat.zero_add], hk, hch⟩

/-- C7 counterexample: on the input `"@"` the lexer error reports 0 as
the "column" of the offending character, while its 1-based column (as
computed by the parser's own `find_column`) is 1 — the reported value is
the 0-based absolute offset, not a 1-based column. -/
theorem c7_counterexample :
    tokenize "@".data = .error (.lexError '@' 1 0) ∧
      find_column "@".data 0 = 1 ∧ (0 : Nat) ≠ 1 :=
  ⟨by rfl, by rfl, by decide⟩

/-- Witness for C7 at the concrete input `"A@"`. -/
theorem c7_witness :
    (∃ c ∈ "A@".data, lexConsumable c = false) ∧
    (∃ k ch, tokenize "A@".data = .error (.lexError ch (1 + (("A@".data.take k).count '\n')) k) ∧
      k < "A@".data.length ∧ ("A@".data.drop k).head? = some ch) :=
  ⟨by decide, c7_lex_error_on_bad_char _ (by decide)⟩

theorem threadLin_append (l1 l2 : List Lin) :
    ∀ z, threadLin z (l1 ++ l2) = (threadLin z l1).bind (fun z2 => threadLin z2 l2) := by
  induction l1 with
  | nil => intro z; simp [threadLin]
  | cons st rest ih =>
    intro z
    cases z with
    | none => simpa [threadLin] using ih (some st)
    | some z =>
      by_cases h : st = z
      · simpa [threadLin, h] using ih (some z)
      · simp [threadLin, h]

theorem threadLin_some_ne (z : Lin) : ∀ sts, threadLin (some z) sts ≠ some none := by
  intro sts
  induction sts with
  | nil => simp [threadLin]
  | cons st rest ih =>
    by_cases h : st = z
    · simpa [threadLin, h] using ih
    · simp [threadLin, h]

theorem threadLin_some_none_iff (z : Lin) :
    ∀ sts, (threadLin (some z) sts = none ↔ sts.all (fun y => y = z) = false) := by
  intro sts
  induction sts with
  | nil => simp [threadLin]
  | cons st rest ih =>
    by_cases h : st = z
    · subst h; simpa [threadLin] using ih
    · simp [threadLin, h]

theorem threadLin_none_none_iff :
    ∀ sts, (threadLin none sts = none ↔ linAllEq sts = false)
  | [] => by simp [threadLin, linAllEq]
  | x :: xs => by
    simpa [threadLin, linAllEq] using threadLin_some_none_iff x xs

theorem threadLin_none_some_none_iff :
    ∀ sts, (threadLin none sts = some none ↔ sts = [])
  | [] => by simp [threadLin]
  | x :: xs => by
    simp only [threadLin]
    constructor
    · intro h; exact absurd h (threadLin_some_ne x xs)
    · intro h; exact List.noConfusion h

theorem simplify_sub_eq {i j : Expr} {li lj : Lin} (hi : simplify i = some li)
    (hj : simplify j = some lj) : simplify (Expr.sub j i) = some (lj.sub li) := by
  simp [simplify, hi, hj]

theorem spliceSub_simplify : ∀ (i j : Expr) (li lj : Lin),
    simplify i = some li → simplify j = some lj →
    (simplify (spliceSub j i)).isSome = true
  | .num n, j, li, lj, hi, hj => by
    rw [show spliceSub j (.num n) = Expr.sub j (.num n) from rfl,
      simplify_sub_eq hi hj]
    rfl
  | .var y, j, li, lj, hi, hj => by
    rw [show spliceSub j (.var y) = Expr.sub j (.var y) from rfl,
      simplify_sub_eq hi hj]
    rfl
  | .mul a b, j, li, lj, hi, hj => by
    rw [show spliceSub j (.mul a b) = Expr.sub j (.mul a b) from rfl,
      simplify_sub_eq hi hj]
    rfl
  | .div a b, j, li, lj, hi, hj => by
    rw [show spliceSub j (.div a b) = Expr.sub j (.div a b) from rfl,
      simplify_sub_eq hi hj]
    rfl
  | .add a b, j, li, lj, hi, hj => by
    simp only [simplify] at hi
    split at hi
    · rename_i la lb ha hb
      rw [show spliceSub j (.add a b) = Expr.add (spliceSub j a) b from rfl]
      obtain ⟨l2, hl2⟩ :=
        Option.isSome_iff_exists.mp (spliceSub_simplify a j la lj ha hj)
      rw [show simplify (Expr.add (spliceSub j a) b) = some (l2.add lb) from by
        simp [simplify, hl2, hb]]
      rfl
    · exact Option.noConfusion hi
  | .sub a b, j, li, lj, hi, hj => by
    simp only [simplify] at hi
    split at hi
    · rename_i la lb ha hb
      rw [show spliceSub j (.sub a b) = Expr.sub (spliceSub j a) b from rfl]
      obtain ⟨l2, hl2⟩ :=
        Option.isSome_iff_exists.mp (spliceSub_simplify a j la lj ha hj)
      rw [show simplify (Expr.sub (spliceSub j a) b) = some (l2.sub lb) from by
        simp [simplify, hl2, hb]]
      rfl
    · exact Option.noConfusion hi

theorem spliceSub_mentions (j : Expr) : ∀ (i : Expr) (x : String),
    (spliceSub j i).mentions x = (j.mentions x || i.mentions x)
  | .num n, x => rfl
  | .var y, x => rfl
  | .mul a b, x => rfl
  | .div a b, x => rfl
  | .add a b, x => by
    rw [show spliceSub j (.add a b) = Expr.add (spliceSub j a) b from rfl]
    show ((spliceSub j a).mentions x || b.mentions x) = _
    rw [spliceSub_mentions j a x]
    exact Bool.or_assoc (j.mentions x) (a.mentions x) (b.mentions x)
  | .sub a b, x => by
    rw [show spliceSub j (.sub a b) = Expr.sub (spliceSub j a) b from rfl]
    show ((spliceSub j a).mentions x || b.mentions x) = _
    rw [spliceSub_mentions j a x]
    exact Bool.or_assoc (j.mentions x) (a.mentions x) (b.mentions x)

/-- The ungrouped splice at work: for first-snapshot index `N - 1` (as
canonically printed) and last `2*N`, the implied trip count is the
source's `2*N - N - 1 + 1 = N`, not the grouped `2*N - (N - 1) + 1 =
N + 2`. -/
theorem strideOf_splice_example :
    strideOf (Lin.toExpr ⟨-1, [("N", 1)]⟩) (Lin.toExpr ⟨0, [("N", 2)]⟩) =
      some ⟨0, [("N", 1)]⟩ := by
  with_unfolding_all rfl

theorem strideOf_total {i j : Expr} {li lj : Lin}
    (hi : simplify i = some li) (hj : simplify j = some lj) :
    ∃ ls, strideOf i j = some ls ∧ ls.Norm := by
  obtain ⟨l2, hl2⟩ :=
    Option.isSome_iff_exists.mp (spliceSub_simplify i j li lj hi hj)
  have hstr : strideOf i j = some (l2.add linOne) := by
    show simplify (Expr.add (spliceSub j i) (Expr.num 1)) = _
    exact simplify_add_one hl2
  exact ⟨l2.add linOne, hstr, simplify_norm hstr⟩

theorem zipIndicesChar (name : String) :
    ∀ (ps : List (Expr × Expr)) (sz : Option Expr),
      (∀ p ∈ ps, (simplify p.1).isSome = true ∧ (simplify p.2).isSome = true) →
      sizeOK sz →
      (∀ e, zipIndices name ps sz = .error e →
        e = .synError ∧ threadLin (sz.bind simplify) (strideIdx ps) = none) ∧
      (∀ r, zipIndices name ps sz = .ok r →
        threadLin (sz.bind simplify) (strideIdx ps) = some (r.2.bind simplify) ∧
          sizeOK r.2)
  | [], sz, hps, hsz => by
    constructor
    · intro e h; exact Except.noConfusion h
    · intro r h
      simp only [zipIndices] at h
      obtain rfl : (([], sz) : List Expr × Option Expr) = r := Except.ok.inj h
      refine ⟨?_, hsz⟩
      simp [strideIdx, threadLin]
  | (i, j) :: rest, sz, hps, hsz => by
    obtain ⟨hi', hj'⟩ := hps (i, j) (List.mem_cons_self _ _)
    obtain ⟨li, hi⟩ := Option.isSome_iff_exists.mp hi'
    obtain ⟨lj, hj⟩ := Option.isSome_iff_exists.mp hj'
    have hrest : ∀ p ∈ rest, (simplify p.1).isSome = true ∧ (simplify p.2).isSome = true :=
      fun p hp => hps p (List.mem_cons_of_mem _ hp)
    obtain ⟨ls, hstride, hnorm0⟩ := strideOf_total hi hj
    by_cases hlij : li = lj
    · -- equal canonical indices: position skipped
      have hsi : strideIdx ((i, j) :: rest) = strideIdx rest := by
        simp [strideIdx, hi, hj, hstride, hlij]
      have ih := zipIndicesChar name rest sz hrest hsz
      constructor
      · intro e h
        simp only [zipIndices, hi, hj, if_pos hlij] at h
        rw [hsi]
        split at h
        · exact Except.noConfusion h
        · rename_i e2 heq
          obtain rfl : e2 = e := Except.error.inj h
          exact ih.1 e2 heq
      · intro r h
        simp only [zipIndices, hi, hj, if_pos hlij] at h
        rw [hsi]
        split at h
        · rename_i indices size2 heq
          obtain rfl : ((i :: indices, size2) : List Expr × Option Expr) = r :=
            Except.ok.inj h
          exact ih.2 (indices, size2) heq
        · exact Except.noConfusion h
    · -- varying position
      have hsi : strideIdx ((i, j) :: rest) = ls :: strideIdx rest := by
        simp [strideIdx, hi, hj, hstride, hlij]
      cases sz with
      | none =>
        have hss : zipSizeStep i j none = .ok (some ls.toExpr) := by
          simp [zipSizeStep, hstride]
        have hsome : simplify ls.toExpr = some ls := simplify_toExpr hnorm0
        have hsz2 : sizeOK (some ls.toExpr) := by
          simp [sizeOK, hsome]
        have hcanon : canonStr (Expr.add i (Expr.var name)) =
            .ok (li.add ⟨0, [(name, 1)]⟩).toExpr := by
          simp [canonStr, simplify_add_var name hi]
        have ih := zipIndicesChar name rest (some ls.toExpr) hrest hsz2
        constructor
        · intro e h
          simp only [zipIndices, hi, hj, if_neg hlij, hss, hcanon] at h
          rw [hsi]
          simp only [Option.bind_none, threadLin]
          split at h
          · exact Except.noConfusion h
          · rename_i e2 heq
            obtain rfl : e2 = e := Except.error.inj h
            have h2 := ih.1 e2 heq
            exact ⟨h2.1, by simpa [hsome] using h2.2⟩
        · intro r h
          simp only [zipIndices, hi, hj, if_neg hlij, hss, hcanon] at h
          rw [hsi]
          simp only [Option.bind_none, threadLin]
          split at h
          · rename_i indices size3 heq
            obtain rfl : (((li.add ⟨0, [(name, 1)]⟩).toExpr :: indices, size3) :
                List Expr × Option Expr) = r := Except.ok.inj h
            have := ih.2 (indices, size3) heq
            constructor
            · simpa [hsome] using this.1
            · exact this.2
          · exact Except.noConfusion h
      | some s =>
        obtain ⟨zl, hzl⟩ := Option.isSome_iff_exists.mp hsz
        by_cases heq : ls = zl
        · -- stride agrees with the running size: size kept
          have hss : zipSizeStep i j (some s) = .ok (some s) := by
            simp [zipSizeStep, hstride, hzl, heq]
          have hcanon : canonStr (Expr.add i (Expr.var name)) =
              .ok (li.add ⟨0, [(name, 1)]⟩).toExpr := by
            simp [canonStr, simplify_add_var name hi]
          have ih := zipIndicesChar name rest (some s) hrest hsz
          constructor
          · intro e h
            simp only [zipIndices, hi, hj, if_neg hlij, hss, hcanon] at h
            rw [hsi]
            rw [show (some s).bind simplify = simplify s from rfl, hzl]
            simp only [threadLin, if_pos heq]
            split at h
            · exact Except.noConfusion h
            · rename_i e2 heq2
              obtain rfl : e2 = e := Except.error.inj h
              have h2 := ih.1 e2 heq2
              refine ⟨h2.1, ?_⟩
              have h3 := h2.2
              rw [show (some s).bind simplify = simplify s from rfl, hzl] at h3
              exact h3
          · intro r h
            simp only [zipIndices, hi, hj, if_neg hlij, hss, hcanon] at h
            rw [hsi]
            rw [show (some s).bind simplify = simplify s from rfl, hzl]
            simp only [threadLin, if_pos heq]
            split at h
            · rename_i indices size3 heq2
              obtain rfl : (((li.add ⟨0, [(name, 1)]⟩).toExpr :: indices, size3) :
                  List Expr × Option Expr) = r := Except.ok.inj h
              have h2 := ih.2 (indices, size3) heq2
              refine ⟨?_, h2.2⟩
              have h3 := h2.1
              rw [show (some s).bind simplify = simplify s from rfl, hzl] at h3
              exact h3
            · exact Except.noConfusion h
        · -- stride disagrees: SyntaxError
          have hss : zipSizeStep i j (some s) = .error .synError := by
            simp [zipSizeStep, hstride, hzl, heq]
          constructor
          · intro e h
            simp only [zipIndices, hi, hj, if_neg hlij, hss] at h
            obtain rfl : (Err.synError) = e := Except.error.inj h
            rw [hsi, show (some s).bind simplify = simplify s from rfl, hzl]
            simp [threadLin, heq]
          · intro r h
            simp only [zipIndices, hi, hj, if_neg hlij, hss] at h
            exact Except.noConfusion h

mutual

theorem zipCharAux : ∀ (a b : FormatNode) (name : String) (sz : Option Expr),
    linOKF a = true → linOKF b = true → sizeOK sz →
    (∀ e, zip_nodes a b name sz = .error e →
      e = .synError ∧ (zipMismatch a b = true ∨
        threadLin (sz.bind simplify) (stridesF a b) = none)) ∧
    (∀ r, zip_nodes a b name sz = .ok r →
      zipMismatch a b = false ∧
        threadLin (sz.bind simplify) (stridesF a b) = some (r.2.bind simplify) ∧
        sizeOK r.2)
  | .ItemNode an ai, .ItemNode bn bi, name, sz => by
    intro ha hb hsz
    have hps : ∀ p ∈ ai.zip bi, (simplify p.1).isSome = true ∧ (simplify p.2).isSome = true := by
      intro p hp
      obtain ⟨h1, h2⟩ := List.of_mem_zip hp
      simp only [linOKF, List.all_eq_true] at ha hb
      exact ⟨ha _ h1, hb _ h2⟩
    have hidx := zipIndicesChar name (ai.zip bi) sz hps hsz
    by_cases hc : an ≠ bn ∨ ai.length ≠ bi.length
    · constructor
      · intro e h
        simp only [zip_nodes, if_pos hc] at h
        obtain rfl : (Err.synError) = e := Except.error.inj h
        refine ⟨rfl, Or.inl ?_⟩
        simp only [zipMismatch]
        rcases hc with hc | hc <;> simp [hc]
      · intro r h
        simp only [zip_nodes, if_pos hc] at h
        exact Except.noConfusion h
    · push_neg at hc
      obtain ⟨h1, h2⟩ := hc
      constructor
      · intro e h
        simp only [zip_nodes, if_neg (by push_neg; exact ⟨h1, h2⟩ : ¬(an ≠ bn ∨ ai.length ≠ bi.length))] at h
        split at h
        · exact Except.noConfusion h
        · rename_i e2 heq
          obtain rfl : e2 = e := Except.error.inj h
          have h3 := hidx.1 e2 heq
          exact ⟨h3.1, Or.inr (by simpa [stridesF] using h3.2)⟩
      · intro r h
        simp only [zip_nodes, if_neg (by push_neg; exact ⟨h1, h2⟩ : ¬(an ≠ bn ∨ ai.length ≠ bi.length))] at h
        split at h
        · rename_i indices size2 heq
          obtain rfl : ((FormatNode.ItemNode an indices, size2) :
              FormatNode × Option Expr) = r := Except.ok.inj h
          have h3 := hidx.2 (indices, size2) heq
          refine ⟨?_, by simpa [stridesF] using h3.1, h3.2⟩
          simp [zipMismatch, h1, h2]
        · exact Except.noConfusion h
  | .NewlineNode, .NewlineNode, name, sz => by
    intro ha hb hsz
    constructor
    · intro e h
      simp only [zip_nodes] at h
      exact Except.noConfusion h
    · intro r h
      simp only [zip_nodes] at h
      obtain rfl : ((FormatNode.NewlineNode, sz) : FormatNode × Option Expr) = r :=
        Except.ok.inj h
      exact ⟨rfl, by simp [stridesF, threadLin], hsz⟩
  | .SequenceNode xs, .SequenceNode ys, name, sz => by
    intro ha hb hsz
    simp only [linOKF] at ha hb
    by_cases hc : xs.length ≠ ys.length
    · constructor
      · intro e h
        simp only [zip_nodes, if_pos hc] at h
        obtain rfl : (Err.synError) = e := Except.error.inj h
        exact ⟨rfl, Or.inl (by simp [zipMismatch, hc])⟩
      · intro r h
        simp only [zip_nodes, if_pos hc] at h
        exact Except.noConfusion h
    · push_neg at hc
      have hlist := zipListCharAux xs ys name sz ha hb hsz
      constructor
      · intro e h
        simp only [zip_nodes, if_neg (by push_neg; exact hc : ¬xs.length ≠ ys.length)] at h
        split at h
        · exact Except.noConfusion h
        · rename_i e2 heq
          obtain rfl : e2 = e := Except.error.inj h
          have h3 := hlist.1 e2 heq
          refine ⟨h3.1, ?_⟩
          rcases h3.2 with hm | ht
          · exact Or.inl (by simp [zipMismatch, hm])
          · exact Or.inr (by simpa [stridesF] using ht)
      · intro r h
        simp only [zip_nodes, if_neg (by push_neg; exact hc : ¬xs.length ≠ ys.length)] at h
        split at h
        · rename_i items size2 heq
          obtain rfl : ((FormatNode.SequenceNode items, size2) :
              FormatNode × Option Expr) = r := Except.ok.inj h
          have h3 := hlist.2 (items, size2) heq
          exact ⟨by simp [zipMismatch, hc, h3.1],
            by simpa [stridesF] using h3.2.1, h3.2.2⟩
        · exact Except.noConfusion h
  | .LoopNode asize an abody, .LoopNode bsize bn bbody, name, sz => by
    intro ha hb hsz
    simp only [linOKF] at ha hb
    by_cases hc : asize ≠ bsize ∨ an ≠ bn
    · constructor
      · intro e h
        simp only [zip_nodes, if_pos hc] at h
        obtain rfl : (Err.synError) = e := Except.error.inj h
        refine ⟨rfl, Or.inl ?_⟩
        simp only [zipMismatch]
        rcases hc with hc | hc <;> simp [hc]
      · intro r h
        simp only [zip_nodes, if_pos hc] at h
        exact Except.noConfusion h
    · push_neg at hc
      obtain ⟨h1, h2⟩ := hc
      have hrec := zipCharAux abody bbody name sz ha hb hsz
      constructor
      · intro e h
        simp only [zip_nodes, if_neg (by push_neg; exact ⟨h1, h2⟩ : ¬(asize ≠ bsize ∨ an ≠ bn))] at h
        split at h
        · exact Except.noConfusion h
        · rename_i e2 heq
          obtain rfl : e2 = e := Except.error.inj h
          have h3 := hrec.1 e2 heq
          refine ⟨h3.1, ?_⟩
          rcases h3.2 with hm | ht
          · exact Or.inl (by simp [zipMismatch, hm])
          · exact Or.inr (by simpa [stridesF] using ht)
      · intro r h
        simp only [zip_nodes, if_neg (by push_neg; exact ⟨h1, h2⟩ : ¬(asize ≠ bsize ∨ an ≠ bn))] at h
        split at h
        · rename_i c2 size2 heq
          obtain rfl : ((FormatNode.LoopNode asize an c2, size2) :
              FormatNode × Option Expr) = r := Except.ok.inj h
          have h3 := hrec.2 (c2, size2) heq
          exact ⟨by simp [zipMismatch, h1, h2, h3.1],
            by simpa [stridesF] using h3.2.1, h3.2.2⟩
        · exact Except.noConfusion h
  | .ItemNode _ _, .NewlineNode, _, _ => by
    intro _ _ _
    refine ⟨fun e h => ?_, fun r h => ?_⟩
    · simp only [zip_nodes] at h
      exact ⟨(Except.error.inj h).symm, Or.inl rfl⟩
    · simp only [zip_nodes] at h
      exact Except.noConfusion h
  | .ItemNode _ _, .SequenceNode _, _, _ => by
    intro _ _ _
    refine ⟨fun e h => ?_, fun r h => ?_⟩
    · simp only [zip_nodes] at h
      exact ⟨(Except.error.inj h).symm, Or.inl rfl⟩
    · simp only [zip_nodes] at h
      exact Except.noConfusion h
  | .ItemNode _ _, .LoopNode _ _ _, _, _ => by
    intro _ _ _
    refine ⟨fun e h => ?_, fun r h => ?_⟩
    · simp only [zip_nodes] at h
      exact ⟨(Except.error.inj h).symm, Or.inl rfl⟩
    · simp only [zip_nodes] at h
      exact Except.noConfusion h
  | .NewlineNode, .ItemNode _ _, _, _ => by
    intro _ _ _
    refine ⟨fun e h => ?_, fun r h => ?_⟩
    · simp only [zip_nodes] at h
      exact ⟨(Except.error.inj h).symm, Or.inl rfl⟩
    · simp only [zip_nodes] at h
      exact Except.noConfusion h
  | .NewlineNode, .SequenceNode _, _, _ => by
    intro _ _ _
    refine ⟨fun e h => ?_, fun r h => ?_⟩
    · simp only [zip_nodes] at h
      exact ⟨(Except.error.inj h).symm, Or.inl rfl⟩
    · simp only [zip_nodes] at h
      exact Except.noConfusion h
  | .NewlineNode, .LoopNode _ _ _, _, _ => by
    intro _ _ _
    refine ⟨fun e h => ?_, fun r h => ?_⟩
    · simp only [zip_nodes] at h
      exact ⟨(Except.error.inj h).symm, Or.inl rfl⟩
    · simp only [zip_nodes] at h
      exact Except.noConfusion h
  | .SequenceNode _, .ItemNode _ _, _, _ => by
    intro _ _ _
    refine ⟨fun e h => ?_, fun r h => ?_⟩
    · simp only [zip_nodes] at h
      exact ⟨(Except.error.inj h).symm, Or.inl rfl⟩
    · simp only [zip_nodes] at h
      exact Except.noConfusion h
  | .SequenceNode _, .NewlineNode, _, _ => by
    intro _ _ _
    refine ⟨fun e h => ?_, fun r h => ?_⟩
    · simp only [zip_nodes] at h
      exact ⟨(Except.error.inj h).symm, Or.inl rfl⟩
    · simp only [zip_nodes] at h
      exact Except.noConfusion h
  | .SequenceNode _, .LoopNode _ _ _, _, _ => by
    intro _ _ _
    refine ⟨fun e h => ?_, fun r h => ?_⟩
    · simp only [zip_nodes] at h
      exact ⟨(Except.error.inj h).symm, Or.inl rfl⟩
    · simp only [zip_nodes] at h
      exact Except.noConfusion h
  | .LoopNode _ _ _, .ItemNode _ _, _, _ => by
    intro _ _ _
    refine ⟨fun e h => ?_, fun r h => ?_⟩
    · simp only [zip_nodes] at h
      exact ⟨(Except.error.inj h).symm, Or.inl rfl⟩
    · simp only [zip_nodes] at h
      exact Except.noConfusion h
  | .LoopNode _ _ _, .NewlineNode, _, _ => by
    intro _ _ _
    refine ⟨fun e h => ?_, fun r h => ?_⟩
    · simp only [zip_nodes] at h
      exact ⟨(Except.error.inj h).symm, Or.inl rfl⟩
    · simp only [zip_nodes] at h
      exact Except.noConfusion h
  | .LoopNode _ _ _, .SequenceNode _, _, _ => by
    intro _ _ _
    refine ⟨fun e h => ?_, fun r h => ?_⟩
    · simp only [zip_nodes] at h
      exact ⟨(Except.error.inj h).symm, Or.inl rfl⟩
    · simp only [zip_nodes] at h
      exact Except.noConfusion h

theorem zipListCharAux : ∀ (xs ys : List FormatNode) (name : String) (sz : Option Expr),
    linOKList xs = true → linOKList ys = true → sizeOK sz →
    (∀ e, zipList xs ys name sz = .error e →
      e = .synError ∧ (zipMismatchList xs ys = true ∨
        threadLin (sz.bind simplify) (stridesList xs ys) = none)) ∧
    (∀ r, zipList xs ys name sz = .ok r →
      zipMismatchList xs ys = false ∧
        threadLin (sz.bind simplify) (stridesList xs ys) = some (r.2.bind simplify) ∧
        sizeOK r.2)
  | [], ys, name, sz => by
    intro ha hb hsz
    constructor
    · intro e h
      simp only [zipList] at h
      exact Except.noConfusion h
    · intro r h
      simp only [zipList] at h
      obtain rfl : (([], sz) : List FormatNode × Option Expr) = r := Except.ok.inj h
      exact ⟨rfl, by simp [stridesList, threadLin], hsz⟩
  | x :: xs2, [], name, sz => by
    intro ha hb hsz
    constructor
    · intro e h
      simp only [zipList] at h
      exact Except.noConfusion h
    · intro r h
      simp only [zipList] at h
      obtain rfl : (([], sz) : List FormatNode × Option Expr) = r := Except.ok.inj h
      exact ⟨rfl, by simp [stridesList, threadLin], hsz⟩
  | x :: xs2, y :: ys2, name, sz => by
    intro ha hb hsz
    simp only [linOKList, Bool.and_eq_true] at ha hb
    have hx := zipCharAux x y name sz ha.1 hb.1 hsz
    constructor
    · intro e h
      simp only [zipList] at h
      rw [show stridesList (x :: xs2) (y :: ys2) = stridesF x y ++ stridesList xs2 ys2 from rfl,
        threadLin_append]
      split at h
      · rename_i c size2 heq
        have h3 := hx.2 (c, size2) heq
        rw [h3.2.1]
        split at h
        · exact Except.noConfusion h
        · rename_i e2 heq2
          obtain rfl : e2 = e := Except.error.inj h
          have h4 := (zipListCharAux xs2 ys2 name size2 ha.2 hb.2 h3.2.2).1 e2 heq2
          refine ⟨h4.1, ?_⟩
          rcases h4.2 with hm | ht
          · exact Or.inl (by simp [zipMismatchList, hm])
          · exact Or.inr (by simpa using ht)
      · rename_i e2 heq
        obtain rfl : e2 = e := Except.error.inj h
        have h3 := hx.1 e2 heq
        refine ⟨h3.1, ?_⟩
        rcases h3.2 with hm | ht
        · exact Or.inl (by simp [zipMismatchList, hm])
        · refine Or.inr ?_
          rw [ht]
          rfl
    · intro r h
      simp only [zipList] at h
      rw [show stridesList (x :: xs2) (y :: ys2) = stridesF x y ++ stridesList xs2 ys2 from rfl,
        threadLin_append]
      split at h
      · rename_i c size2 heq
        have h3 := hx.2 (c, size2) heq
        rw [h3.2.1]
        split at h
        · rename_i items size3 heq2
          obtain rfl : ((c :: items, size3) : List FormatNode × Option Expr) = r :=
            Except.ok.inj h
          have h4 := (zipListCharAux xs2 ys2 name size2 ha.2 hb.2 h3.2.2).2
            (items, size3) heq2
          exact ⟨by simp [zipMismatchList, h3.1, h4.1],
            by simpa using h4.2.1, h4.2.2⟩
        · exact Except.noConfusion h
      · exact Except.noConfusion h
end

theorem dotsUnifyChar (a b : FormatNode) (name : String)
    (ha : linOKF a = true) (hb : linOKF b = true) :
    (dotsUnify a b name = .error .synError ↔
      (zipMismatch a b = true ∨ linAllEq (stridesF a b) = false ∨
        stridesF a b = [])) ∧
    (∀ e, dotsUnify a b name = .error e → e = .synError) := by
  have hz := zipCharAux a b name none ha hb trivial
  constructor
  · constructor
    · intro hsyn
      cases h : zip_nodes a b name none with
      | error e =>
        have h3 := hz.1 e h
        rcases h3.2 with hm | ht
        · exact Or.inl hm
        · refine Or.inr (Or.inl ?_)
          rw [show (none : Option Expr).bind simplify = none from rfl] at ht
          exact (threadLin_none_none_iff _).mp ht
      | ok r =>
        obtain ⟨c, s2⟩ := r
        have h3 := hz.2 (c, s2) h
        cases s2 with
        | none =>
          refine Or.inr (Or.inr ?_)
          have ht := h3.2.1
          rw [show (none : Option Expr).bind simplify = none from rfl] at ht
          exact (threadLin_none_some_none_iff _).mp ht
        | some s =>
          rw [show dotsUnify a b name = .ok (.LoopNode s name c) from by
            simp [dotsUnify, h]] at hsyn
          exact Except.noConfusion hsyn
    · intro hd
      have herr : ∀ e, zip_nodes a b name none = .error e →
          dotsUnify a b name = .error .synError := by
        intro e he
        have h3 := hz.1 e he
        rw [show dotsUnify a b name = .error e from by simp [dotsUnify, he]]
        rw [h3.1]
      cases h : zip_nodes a b name none with
      | error e => exact herr e h
      | ok r =>
        obtain ⟨c, s2⟩ := r
        have h3 := hz.2 (c, s2) h
        rcases hd with hm | hne | hnil
        · rw [h3.1] at hm
          exact Bool.noConfusion hm
        · have := (threadLin_none_none_iff (stridesF a b)).mpr hne
          rw [show (none : Option Expr).bind simplify = none from rfl] at h3
          rw [this] at h3
          exact Option.noConfusion h3.2.1
        · cases s2 with
          | none => simp [dotsUnify, h]
          | some s =>
            have ht := h3.2.1
            rw [show (none : Option Expr).bind simplify = none from rfl, hnil] at ht
            rw [show threadLin none ([] : List Lin) = some none from rfl] at ht
            have : (some s).bind simplify = none := (Option.some_inj.mp ht).symm
            rw [show (some s).bind simplify = simplify s from rfl] at this
            have h4 := h3.2.2
            rw [show sizeOK (some s) = ((simplify s).isSome = true) from rfl] at h4
            rw [this] at h4
            exact Bool.noConfusion h4
  · intro e he
    cases h : zip_nodes a b name none with
    | error e2 =>
      have h3 := hz.1 e2 h
      rw [show dotsUnify a b name = .error e2 from by simp [dotsUnify, h]] at he
      obtain rfl : e2 = e := Except.error.inj he
      exact h3.1
    | ok r =>
      obtain ⟨c, s2⟩ := r
      cases s2 with
      | none =>
        rw [show dotsUnify a b name = .error .synError from by simp [dotsUnify, h]] at he
        exact (Except.error.inj he).symm
      | some s =>
        rw [show dotsUnify a b name = .ok (.LoopNode s name c) from by
          simp [dotsUnify, h]] at he
        exact Except.noConfusion he

/-- C3: unifying a dots-pair's first/last snapshots (trees inside the
engine's fragment) raises `SyntaxError` exactly when the pair has a
structural mismatch (kind, item name or arity, sequence arity, or
nested-loop size/counter), or the varying index positions imply
conflicting trip counts, or no index position varies at all; no other
error is ever raised; in particular the concrete pair whose two varying
positions imply trip counts `N` and `N - 1` raises `SyntaxError`. -/
theorem c3_dots_unify_syntax_error :
    (∀ (a b : FormatNode) (name : String),
        linOKF a = true → linOKF b = true →
        ((dotsUnify a b name = .error .synError ↔
            (zipMismatch a b = true ∨ linAllEq (stridesF a b) = false ∨
              stridesF a b = [])) ∧
          ∀ e, dotsUnify a b name = .error e → e = .synError)) ∧
    dotsUnify
        (.SequenceNode [.ItemNode "A" [.num 1], .ItemNode "B" [.num 2]])
        (.SequenceNode [.ItemNode "A" [.var "N"], .ItemNode "B" [.var "N"]])
        "i" = .error .synError :=
  ⟨fun a b name ha hb => dotsUnifyChar a b name ha hb,
    by with_unfolding_all rfl⟩

/-- Witness for C3's universal part at a concrete in-fragment pair. -/
theorem c3_witness :
    linOKF (.SequenceNode [.ItemNode "A" [.num 1], .ItemNode "B" [.num 2]]) = true ∧
    linOKF (.SequenceNode [.ItemNode "A" [.var "N"], .ItemNode "B" [.var "N"]]) = true ∧
    (dotsUnify
        (.SequenceNode [.ItemNode "A" [.num 1], .ItemNode "B" [.num 2]])
        (.SequenceNode [.ItemNode "A" [.var "N"], .ItemNode "B" [.var "N"]])
        "i" = .error .synError ↔
      (zipMismatch
          (.SequenceNode [.ItemNode "A" [.num 1], .ItemNode "B" [.num 2]])
          (.SequenceNode [.ItemNode "A" [.var "N"], .ItemNode "B" [.var "N"]]) = true ∨
        linAllEq (stridesF
          (.SequenceNode [.ItemNode "A" [.num 1], .ItemNode "B" [.num 2]])
          (.SequenceNode [.ItemNode "A" [.var "N"], .ItemNode "B" [.var "N"]])) = false ∨
        stridesF
          (.SequenceNode [.ItemNode "A" [.num 1], .ItemNode "B" [.num 2]])
          (.SequenceNode [.ItemNode "A" [.var "N"], .ItemNode "B" [.var "N"]]) = [])) :=
  ⟨by with_unfolding_all rfl, by with_unfolding_all rfl,
    (c3_dots_unify_syntax_error.1
      (.SequenceNode [.ItemNode "A" [.num 1], .ItemNode "B" [.num 2]])
      (.SequenceNode [.ItemNode "A" [.var "N"], .ItemNode "B" [.var "N"]])
      "i" (by with_unfolding_all rfl) (by with_unfolding_all rfl)).1⟩

theorem addTerm_mem {x : String} {q : Rat} {t : String × Rat} {l : List (String × Rat)}
    (ht : t ∈ addTerm x q l) : t.1 = x ∨ t ∈ l := by
  unfold addTerm at ht
  by_cases hq : q = 0
  · rw [if_pos hq] at ht
    exact Or.inr ht
  · rw [if_neg hq] at ht
    exact insertTerm_mem ht

theorem foldr_addTerm_mem {t : String × Rat} (base : List (String × Rat)) :
    ∀ ts : List (String × Rat),
      t ∈ ts.foldr (fun p l => addTerm p.1 p.2 l) base →
      (∃ q, (t.1, q) ∈ ts) ∨ t ∈ base
  | [], ht => Or.inr ht
  | p :: rest, ht => by
    simp only [List.foldr_cons] at ht
    rcases addTerm_mem ht with h | h
    · exact Or.inl ⟨p.2, by rw [h]; simp⟩
    · rcases foldr_addTerm_mem base rest h with ⟨q, hq⟩ | h2
      · exact Or.inl ⟨q, List.mem_cons_of_mem _ hq⟩
      · exact Or.inr h2

theorem Lin.add_mem {a b : Lin} {x : String} {q : Rat}
    (h : (x, q) ∈ (a.add b).terms) :
    (∃ q2, (x, q2) ∈ a.terms) ∨ (∃ q2, (x, q2) ∈ b.terms) := by
  have h2 := foldr_addTerm_mem b.terms a.terms h
  rcases h2 with ⟨q2, hq⟩ | h3
  · exact Or.inl ⟨q2, hq⟩
  · exact Or.inr ⟨q, h3⟩

theorem Lin.scale_mem {a : Lin} {r : Rat} {x : String} {q : Rat}
    (h : (x, q) ∈ (a.scale r).terms) : ∃ q2, (x, q2) ∈ a.terms := by
  unfold Lin.scale at h
  by_cases hr : r = 0
  · rw [if_pos hr] at h
    exact absurd h (List.not_mem_nil _)
  · rw [if_neg hr] at h
    obtain ⟨p, hp, he⟩ := List.mem_map.mp h
    obtain ⟨h1, h2⟩ := Prod.mk.injEq .. ▸ he
    exact ⟨p.2, by rw [← h1]; simpa using hp⟩

theorem Lin.sub_mem {a b : Lin} {x : String} {q : Rat}
    (h : (x, q) ∈ (a.sub b).terms) :
    (∃ q2, (x, q2) ∈ a.terms) ∨ (∃ q2, (x, q2) ∈ b.terms) := by
  rcases Lin.add_mem h with h2 | ⟨q2, h2⟩
  · exact Or.inl h2
  · exact Or.inr (Lin.scale_mem h2)

theorem simplify_mentions : ∀ (e : Expr) (l : Lin), simplify e = some l →
    ∀ (x : String) (q : Rat), (x, q) ∈ l.terms → e.mentions x = true
  | .num n, l, h, x, q, hm => by
    obtain rfl : (⟨(n : Rat), []⟩ : Lin) = l := Option.some.inj h
    exact absurd hm (List.not_mem_nil _)
  | .var y, l, h, x, q, hm => by
    obtain rfl : (⟨0, [(y, 1)]⟩ : Lin) = l := Option.some.inj h
    simp only [List.mem_singleton, Prod.mk.injEq] at hm
    simp [Expr.mentions, hm.1]
  | .add a b, l, h, x, q, hm => by
    simp only [simplify] at h
    split at h
    · rename_i la lb ha hb
      obtain rfl : la.add lb = l := Option.some.inj h
      simp only [Expr.mentions, Bool.or_eq_true]
      rcases Lin.add_mem hm with ⟨q2, h2⟩ | ⟨q2, h2⟩
      · exact Or.inl (simplify_mentions a la ha x q2 h2)
      · exact Or.inr (simplify_mentions b lb hb x q2 h2)
    · exact Option.noConfusion h
  | .sub a b, l, h, x, q, hm => by
    simp only [simplify] at h
    split at h
    · rename_i la lb ha hb
      obtain rfl : la.sub lb = l := Option.some.inj h
      simp only [Expr.mentions, Bool.or_eq_true]
      rcases Lin.sub_mem hm with ⟨q2, h2⟩ | ⟨q2, h2⟩
      · exact Or.inl (simplify_mentions a la ha x q2 h2)
      · exact Or.inr (simplify_mentions b lb hb x q2 h2)
    · exact Option.noConfusion h
  | .mul a b, l, h, x, q, hm => by
    simp only [simplify] at h
    split at h
    · rename_i la lb ha hb
      simp only [Expr.mentions, Bool.or_eq_true]
      split at h
      · rename_i hat
        obtain rfl : lb.scale la.const = l := Option.some.inj h
        obtain ⟨q2, h2⟩ := Lin.scale_mem hm
        exact Or.inr (simplify_mentions b lb hb x q2 h2)
      · rename_i hbt
        obtain rfl : la.scale lb.const = l := Option.some.inj h
        obtain ⟨q2, h2⟩ := Lin.scale_mem hm
        exact Or.inl (simplify_mentions a la ha x q2 h2)
      · exact Option.noConfusion h
    · exact Option.noConfusion h
  | .div a b, l, h, x, q, hm => by
    simp only [simplify] at h
    split at h
    · rename_i la lb ha hb
      simp only [Expr.mentions, Bool.or_eq_true]
      split at h
      · split at h
        · exact Option.noConfusion h
        · obtain rfl : la.scale lb.const⁻¹ = l := Option.some.inj h
          obtain ⟨q2, h2⟩ := Lin.scale_mem hm
          exact Or.inl (simplify_mentions a la ha x q2 h2)
      · exact Option.noConfusion h
    · exact Option.noConfusion h

theorem ratToExpr_mentions (q : Rat) (x : String) :
    (ratToExpr q).mentions x = false := by
  unfold ratToExpr
  split <;> simp [Expr.mentions]

theorem termToExpr_mentions {y : String} {q : Rat} {x : String}
    (h : (termToExpr y q).mentions x = true) : y = x := by
  unfold termToExpr at h
  split at h
  · simpa [Expr.mentions] using h
  · simpa [Expr.mentions, ratToExpr_mentions] using h

theorem foldr_toExpr_mentions (x : String) (base : Expr) :
    ∀ ts : List (String × Rat),
      (ts.foldr (fun t e => Expr.add (termToExpr t.1 t.2) e) base).mentions x = true →
      (∃ q, (x, q) ∈ ts) ∨ base.mentions x = true
  | [], h => Or.inr h
  | t :: rest, h => by
    simp only [List.foldr_cons, Expr.mentions, Bool.or_eq_true] at h
    rcases h with h | h
    · obtain rfl : t.1 = x := termToExpr_mentions h
      exact Or.inl ⟨t.2, by simp⟩
    · rcases foldr_toExpr_mentions x base rest h with ⟨q, hq⟩ | h2
      · exact Or.inl ⟨q, List.mem_cons_of_mem _ hq⟩
      · exact Or.inr h2

theorem toExpr_mentions {l : Lin} {x : String}
    (h : (Lin.toExpr l).mentions x = true) : ∃ q, (x, q) ∈ l.terms := by
  unfold Lin.toExpr at h
  rcases foldr_toExpr_mentions x (ratToExpr l.const) l.terms h with h2 | h2
  · exact h2
  · rw [ratToExpr_mentions] at h2
    exact Bool.noConfusion h2

theorem canonStr_mentions {e s : Expr} (h : canonStr e = .ok s) {x : String}
    (hm : s.mentions x = true) : e.mentions x = true := by
  unfold canonStr at h
  split at h
  · rename_i l hl
    obtain rfl : l.toExpr = s := Except.ok.inj h
    obtain ⟨q, hq⟩ := toExpr_mentions hm
    exact simplify_mentions e l hl x q hq
  · exact Except.noConfusion h

theorem wOKList_iff : ∀ (env : List String) (l : List FormatNode),
    wOKList env l ↔ ∀ t ∈ l, wOK env t
  | env, [] => by simp [wOKList]
  | env, x :: xs => by
    simp only [wOKList, List.mem_cons]
    rw [wOKList_iff env xs]
    constructor
    · rintro ⟨h1, h2⟩ t (rfl | ht)
      · exact h1
      · exact h2 t ht
    · intro h
      exact ⟨h x (Or.inl rfl), fun t ht => h t (Or.inr ht)⟩

mutual

theorem wOK_mono : ∀ (t : FormatNode) (env env2 : List String),
    (∀ x, x ∈ env → x ∈ env2) → wOK env t → wOK env2 t
  | .ItemNode nm idx, env, env2, hss, hw => by
    simp only [wOK] at hw ⊢
    intro x hx e he hm
    exact hss x (hw x hx e he hm)
  | .NewlineNode, _, _, _, _ => trivial
  | .SequenceNode items, env, env2, hss, hw => wOKListMono items env env2 hss hw
  | .LoopNode size nm body, env, env2, hss, hw => by
    simp only [wOK] at hw ⊢
    obtain ⟨h1, h2, h3⟩ := hw
    refine ⟨h1, h2, wOK_mono body (nm :: env) (nm :: env2) ?_ h3⟩
    intro x hx
    rcases List.mem_cons.mp hx with h | h
    · exact h ▸ List.mem_cons_self _ _
    · exact List.mem_cons_of_mem _ (hss x h)

theorem wOKListMono : ∀ (l : List FormatNode) (env env2 : List String),
    (∀ x, x ∈ env → x ∈ env2) → wOKList env l → wOKList env2 l
  | [], _, _, _, _ => trivial
  | x :: xs, env, env2, hss, hw => by
    simp only [wOKList] at hw ⊢
    exact ⟨wOK_mono x env env2 hss hw.1, wOKListMono xs env env2 hss hw.2⟩

end

mutual

theorem wOK_clean : ∀ (t : FormatNode) (env : List String),
    wOK env t → loopSizesClean t = true
  | .ItemNode _ _, _, _ => rfl
  | .NewlineNode, _, _ => rfl
  | .SequenceNode items, env, hw => wOKListClean items env hw
  | .LoopNode size nm body, env, hw => by
    simp only [wOK] at hw
    obtain ⟨_, h2, h3⟩ := hw
    simp only [loopSizesClean, h2, Bool.not_false, Bool.true_and]
    exact wOK_clean body (nm :: env) h3

theorem wOKListClean : ∀ (l : List FormatNode) (env : List String),
    wOKList env l → loopSizesCleanList l = true
  | [], _, _ => rfl
  | x :: xs, env, hw => by
    simp only [wOKList] at hw
    simp only [loopSizesCleanList, Bool.and_eq_true]
    exact ⟨wOK_clean x env hw.1, wOKListClean xs env hw.2⟩

end

mutual

theorem loopNames_sub_used : ∀ (t : FormatNode) (x : String),
    x ∈ loopNamesF t → x ∈ list_used_names t
  | .ItemNode _ _, x, h => absurd h (List.not_mem_nil _)
  | .NewlineNode, x, h => absurd h (List.not_mem_nil _)
  | .SequenceNode items, x, h => loopNamesListSubUsed items x h
  | .LoopNode size nm body, x, h => by
    simp only [loopNamesF, List.mem_cons] at h
    simp only [list_used_names, List.mem_cons]
    rcases h with h | h
    · exact Or.inl h
    · exact Or.inr (loopNames_sub_used body x h)

theorem loopNamesListSubUsed : ∀ (l : List FormatNode) (x : String),
    x ∈ loopNamesList l → x ∈ usedNamesList l
  | [], x, h => absurd h (List.not_mem_nil _)
  | t :: ts, x, h => by
    simp only [loopNamesList, List.mem_append] at h
    simp only [usedNamesList, List.mem_append]
    rcases h with h | h
    · exact Or.inl (loopNames_sub_used t x h)
    · exact Or.inr (loopNamesListSubUsed ts x h)

end


theorem zipIndicesW (name : String) :
    ∀ (ps : List (Expr × Expr)) (sz : Option Expr) (env V : List String),
      (∀ p ∈ ps, ∀ x ∈ counterLetters,
        (p.1.mentions x = true → x ∈ env) ∧ (p.2.mentions x = true → x ∈ env)) →
      (∀ s2, sz = some s2 → ∀ x ∈ counterLetters,
        s2.mentions x = true → x ∈ env ∨ x ∈ V) →
      ∀ r, zipIndices name ps sz = .ok r →
        (∀ e ∈ r.1, ∀ x ∈ counterLetters, e.mentions x = true → x ∈ name :: env) ∧
        (∀ s2, r.2 = some s2 → ∀ x ∈ counterLetters,
          s2.mentions x = true → x ∈ env ∨ x ∈ V)
  | [], sz, env, V, hps, hsz, r, h => by
    simp only [zipIndices] at h
    obtain rfl : (([], sz) : List Expr × Option Expr) = r := Except.ok.inj h
    exact ⟨by intro e he; exact absurd he (List.not_mem_nil _), hsz⟩
  | (i, j) :: rest, sz, env, V, hps, hsz, r, h => by
    obtain ⟨hpi, hpj⟩ : (∀ x ∈ counterLetters, i.mentions x = true → x ∈ env) ∧
        (∀ x ∈ counterLetters, j.mentions x = true → x ∈ env) := by
      have h0 := hps (i, j) (List.mem_cons_self _ _)
      exact ⟨fun x hx => (h0 x hx).1, fun x hx => (h0 x hx).2⟩
    have hrest : ∀ p ∈ rest, ∀ x ∈ counterLetters,
        (p.1.mentions x = true → x ∈ env) ∧ (p.2.mentions x = true → x ∈ env) :=
      fun p hp => hps p (List.mem_cons_of_mem _ hp)
    simp only [zipIndices] at h
    split at h
    · rename_i li lj hi hj
      split at h
      · -- equal canonical indices: index kept literally
        split at h
        · rename_i indices size2 heq
          obtain rfl : ((i :: indices, size2) : List Expr × Option Expr) = r :=
            Except.ok.inj h
          have ih := zipIndicesW name rest sz env V hrest hsz (indices, size2) heq
          refine ⟨?_, ih.2⟩
          intro e he x hx hm
          rcases List.mem_cons.mp he with rfl | he2
          · exact List.mem_cons_of_mem _ (hpi x hx hm)
          · exact ih.1 e he2 x hx hm
        · exact Except.noConfusion h
      · -- varying position
        rename_i hlij
        split at h
        · exact Except.noConfusion h
        · rename_i size2 hstep
          -- the updated running size satisfies the var condition
          have hsz2 : ∀ s2, size2 = some s2 → ∀ x ∈ counterLetters,
              s2.mentions x = true → x ∈ env ∨ x ∈ V := by
            intro s2 hs2 x hx hm
            subst hs2
            cases sz with
            | none =>
              simp only [zipSizeStep] at hstep
              split at hstep
              · rename_i lstride hstr
                obtain hst : (some lstride.toExpr : Option Expr) = some s2 :=
                  Except.ok.inj hstep
                obtain rfl : lstride.toExpr = s2 := Option.some.inj hst
                obtain ⟨q, hq⟩ := toExpr_mentions hm
                have hmm : (Expr.add (spliceSub j i) (Expr.num 1)).mentions x = true := by
                  have := simplify_mentions _ _ (by simpa [strideOf] using hstr) x q hq
                  exact this
                simp only [Expr.mentions, spliceSub_mentions, Bool.or_eq_true] at hmm
                rcases hmm with (hmm | hmm) | hmm
                · exact Or.inl (hpj x hx hmm)
                · exact Or.inl (hpi x hx hmm)
                · exact Bool.noConfusion hmm
              · exact Except.noConfusion hstep
            | some s =>
              simp only [zipSizeStep] at hstep
              split at hstep
              · rename_i lstride ls hstr hls
                split at hstep
                · obtain hst : (some s : Option Expr) = some s2 := Except.ok.inj hstep
                  obtain rfl : s = s2 := Option.some.inj hst
                  exact hsz s rfl x hx hm
                · exact Except.noConfusion hstep
              · exact Except.noConfusion hstep
          split at h
          · exact Except.noConfusion h
          · rename_i idx hcanon
            split at h
            · rename_i indices size3 heq
              obtain rfl : ((idx :: indices, size3) : List Expr × Option Expr) = r :=
                Except.ok.inj h
              have ih := zipIndicesW name rest size2 env V hrest hsz2 (indices, size3) heq
              refine ⟨?_, ih.2⟩
              intro e he x hx hm
              rcases List.mem_cons.mp he with rfl | he2
              · -- merged index: mentions come from i or are the counter itself
                have hmm : (Expr.add i (Expr.var name)).mentions x = true :=
                  canonStr_mentions hcanon hm
                simp only [Expr.mentions, Bool.or_eq_true] at hmm
                rcases hmm with hmm | hmm
                · exact List.mem_cons_of_mem _ (hpi x hx hmm)
                · have : name = x := by simpa using hmm
                  exact this ▸ List.mem_cons_self _ _
              · exact ih.1 e he2 x hx hm
            · exact Except.noConfusion h
    · exact Except.noConfusion h

mutual

theorem zipWAux : ∀ (a b : FormatNode) (name : String) (sz : Option Expr)
    (env V : List String),
    wOK env a → wOK env b →
    (∀ s2, sz = some s2 → ∀ x ∈ counterLetters,
      s2.mentions x = true → x ∈ env ∨ x ∈ V) →
    ∀ r, zip_nodes a b name sz = .ok r →
      wOK (name :: env) r.1 ∧
      (∀ s2, r.2 = some s2 → ∀ x ∈ counterLetters,
        s2.mentions x = true → x ∈ env ∨ x ∈ V ∨ x ∈ loopNamesF a)
  | .ItemNode an ai, .ItemNode bn bi, name, sz, env, V => by
    intro ha hb hsz r h
    simp only [wOK] at ha hb
    simp only [zip_nodes] at h
    split at h
    · exact Except.noConfusion h
    · split at h
      · rename_i indices size2 heq
        obtain rfl : ((FormatNode.ItemNode an indices, size2) :
            FormatNode × Option Expr) = r := Except.ok.inj h
        have hps : ∀ p ∈ ai.zip bi, ∀ x ∈ counterLetters,
            (p.1.mentions x = true → x ∈ env) ∧ (p.2.mentions x = true → x ∈ env) := by
          intro p hp x hx
          obtain ⟨h1, h2⟩ := List.of_mem_zip hp
          exact ⟨ha x hx p.1 h1, hb x hx p.2 h2⟩
        have hw := zipIndicesW name (ai.zip bi) sz env V hps hsz (indices, size2) heq
        refine ⟨?_, ?_⟩
        · simp only [wOK]
          exact fun x hx e he hm => hw.1 e he x hx hm
        · intro s2 hs2 x hx hm
          rcases hw.2 s2 hs2 x hx hm with h2 | h2
          · exact Or.inl h2
          · exact Or.inr (Or.inl h2)
      · exact Except.noConfusion h
  | .NewlineNode, .NewlineNode, name, sz, env, V => by
    intro ha hb hsz r h
    simp only [zip_nodes] at h
    obtain rfl : ((FormatNode.NewlineNode, sz) : FormatNode × Option Expr) = r :=
      Except.ok.inj h
    refine ⟨trivial, ?_⟩
    intro s2 hs2 x hx hm
    rcases hsz s2 hs2 x hx hm with h2 | h2
    · exact Or.inl h2
    · exact Or.inr (Or.inl h2)
  | .SequenceNode xs, .SequenceNode ys, name, sz, env, V => by
    intro ha hb hsz r h
    simp only [wOK] at ha hb
    simp only [zip_nodes] at h
    split at h
    · exact Except.noConfusion h
    · split at h
      · rename_i items size2 heq
        obtain rfl : ((FormatNode.SequenceNode items, size2) :
            FormatNode × Option Expr) = r := Except.ok.inj h
        have hw := zipListWAux xs ys name sz env V ha hb hsz (items, size2) heq
        exact ⟨hw.1, hw.2⟩
      · exact Except.noConfusion h
  | .LoopNode asize an abody, .LoopNode bsize bn bbody, name, sz, env, V => by
    intro ha hb hsz r h
    simp only [wOK] at ha hb
    obtain ⟨ha1, ha2, ha3⟩ := ha
    obtain ⟨hb1, hb2, hb3⟩ := hb
    simp only [zip_nodes] at h
    split at h
    · exact Except.noConfusion h
    · rename_i hcond
      push_neg at hcond
      obtain ⟨hsize, hname⟩ := hcond
      split at h
      · rename_i c2 size2 heq
        obtain rfl : ((FormatNode.LoopNode asize an c2, size2) :
            FormatNode × Option Expr) = r := Except.ok.inj h
        have hb3' : wOK (an :: env) bbody := hname ▸ hb3
        have hsz' : ∀ s2, sz = some s2 → ∀ x ∈ counterLetters,
            s2.mentions x = true → x ∈ an :: env ∨ x ∈ V := by
          intro s2 hs2 x hx hm
          rcases hsz s2 hs2 x hx hm with h2 | h2
          · exact Or.inl (List.mem_cons_of_mem _ h2)
          · exact Or.inr h2
        have hw := zipWAux abody bbody name sz (an :: env) V ha3 hb3' hsz'
          (c2, size2) heq
        refine ⟨?_, ?_⟩
        · simp only [wOK]
          refine ⟨ha1, ha2, ?_⟩
          refine wOK_mono c2 (name :: an :: env) (an :: name :: env) ?_ hw.1
          intro x hx
          rcases List.mem_cons.mp hx with rfl | hx2
          · exact List.mem_cons_of_mem _ (List.mem_cons_self _ _)
          · rcases List.mem_cons.mp hx2 with rfl | hx3
            · exact List.mem_cons_self _ _
            · exact List.mem_cons_of_mem _ (List.mem_cons_of_mem _ hx3)
        · intro s2 hs2 x hx hm
          rcases hw.2 s2 hs2 x hx hm with h2 | h2 | h2
          · rcases List.mem_cons.mp h2 with rfl | h3
            · exact Or.inr (Or.inr (List.mem_cons_self _ _))
            · exact Or.inl h3
          · exact Or.inr (Or.inl h2)
          · exact Or.inr (Or.inr (List.mem_cons_of_mem _ h2))
      · exact Except.noConfusion h
  | .ItemNode _ _, .NewlineNode, _, _, _, _ => by
    intro _ _ _ r h
    simp only [zip_nodes] at h
    exact Except.noConfusion h
  | .ItemNode _ _, .SequenceNode _, _, _, _, _ => by
    intro _ _ _ r h
    simp only [zip_nodes] at h
    exact Except.noConfusion h
  | .ItemNode _ _, .LoopNode _ _ _, _, _, _, _ => by
    intro _ _ _ r h
    simp only [zip_nodes] at h
    exact Except.noConfusion h
  | .NewlineNode, .ItemNode _ _, _, _, _, _ => by
    intro _ _ _ r h
    simp only [zip_nodes] at h
    exact Except.noConfusion h
  | .NewlineNode, .SequenceNode _, _, _, _, _ => by
    intro _ _ _ r h
    simp only [zip_nodes] at h
    exact Except.noConfusion h
  | .NewlineNode, .LoopNode _ _ _, _, _, _, _ => by
    intro _ _ _ r h
    simp only [zip_nodes] at h
    exact Except.noConfusion h
  | .SequenceNode _, .ItemNode _ _, _, _, _, _ => by
    intro _ _ _ r h
    simp only [zip_nodes] at h
    exact Except.noConfusion h
  | .SequenceNode _, .NewlineNode, _, _, _, _ => by
    intro _ _ _ r h
    simp only [zip_nodes] at h
    exact Except.noConfusion h
  | .SequenceNode _, .LoopNode _ _ _, _, _, _, _ => by
    intro _ _ _ r h
    simp only [zip_nodes] at h
    exact Except.noConfusion h
  | .LoopNode _ _ _, .ItemNode _ _, _, _, _, _ => by
    intro _ _ _ r h
    simp only [zip_nodes] at h
    exact Except.noConfusion h
  | .LoopNode _ _ _, .NewlineNode, _, _, _, _ => by
    intro _ _ _ r h
    simp only [zip_nodes] at h
    exact Except.noConfusion h
  | .LoopNode _ _ _, .SequenceNode _, _, _, _, _ => by
    intro _ _ _ r h
    simp only [zip_nodes] at h
    exact Except.noConfusion h

theorem zipListWAux : ∀ (xs ys : List FormatNode) (name : String) (sz : Option Expr)
    (env V : List String),
    wOKList env xs → wOKList env ys →
    (∀ s2, sz = some s2 → ∀ x ∈ counterLetters,
      s2.mentions x = true → x ∈ env ∨ x ∈ V) →
    ∀ r, zipList xs ys name sz = .ok r →
      wOKList (name :: env) r.1 ∧
      (∀ s2, r.2 = some s2 → ∀ x ∈ counterLetters,
        s2.mentions x = true → x ∈ env ∨ x ∈ V ∨ x ∈ loopNamesList xs)
  | [], ys, name, sz, env, V, ha, hb, hsz, r, h => by
    simp only [zipList] at h
    obtain rfl : (([], sz) : List FormatNode × Option Expr) = r := Except.ok.inj h
    refine ⟨trivial, ?_⟩
    intro s2 hs2 x hx hm
    rcases hsz s2 hs2 x hx hm with h2 | h2
    · exact Or.inl h2
    · exact Or.inr (Or.inl h2)
  | x :: xs2, [], name, sz, env, V, ha, hb, hsz, r, h => by
    simp only [zipList] at h
    obtain rfl : (([], sz) : List FormatNode × Option Expr) = r := Except.ok.inj h
    refine ⟨trivial, ?_⟩
    intro s2 hs2 x hx hm
    rcases hsz s2 hs2 x hx hm with h2 | h2
    · exact Or.inl h2
    · exact Or.inr (Or.inl h2)
  | x :: xs2, y :: ys2, name, sz, env, V, ha, hb, hsz, r, h => by
    simp only [wOKList] at ha hb
    simp only [zipList] at h
    split at h
    · rename_i c size2 heq
      have hx := zipWAux x y name sz env V ha.1 hb.1 hsz (c, size2) heq
      split at h
      · rename_i items size3 heq2
        obtain rfl : ((c :: items, size3) : List FormatNode × Option Expr) = r :=
          Except.ok.inj h
        have hsz2 : ∀ s2, size2 = some s2 → ∀ x2 ∈ counterLetters,
            s2.mentions x2 = true → x2 ∈ env ∨ x2 ∈ V ++ loopNamesF x := by
          intro s2 hs2 x2 hx2 hm
          rcases hx.2 s2 hs2 x2 hx2 hm with h2 | h2 | h2
          · exact Or.inl h2
          · exact Or.inr (List.mem_append.mpr (Or.inl h2))
          · exact Or.inr (List.mem_append.mpr (Or.inr h2))
        have hrest := zipListWAux xs2 ys2 name size2 env (V ++ loopNamesF x)
          ha.2 hb.2 hsz2 (items, size3) heq2
        refine ⟨⟨hx.1, hrest.1⟩, ?_⟩
        intro s2 hs2 x2 hx2 hm
        rcases hrest.2 s2 hs2 x2 hx2 hm with h2 | h2 | h2
        · exact Or.inl h2
        · rcases List.mem_append.mp h2 with h3 | h3
          · exact Or.inr (Or.inl h3)
          · exact Or.inr (Or.inr (by
              simp only [loopNamesList, List.mem_append]
              exact Or.inl h3))
        · exact Or.inr (Or.inr (by
            simp only [loopNamesList, List.mem_append]
            exact Or.inr h2))
      · exact Except.noConfusion h
    · exact Except.noConfusion h

end


theorem extIdxW (n : String) :
    ∀ (ps : List (Expr × Expr)) (env : List String),
      (∀ p ∈ ps, ∀ x ∈ counterLetters, p.1.mentions x = true → x ∈ env) →
      ∀ res, extendIndices n ps = some res →
        ∀ e ∈ res, ∀ x ∈ counterLetters, e.mentions x = true → x ∈ n :: env
  | [], env, hps, res, h => by
    obtain rfl : ([] : List Expr) = res := Option.some.inj h
    intro e he
    exact absurd he (List.not_mem_nil _)
  | (i, j) :: rest, env, hps, res, h => by
    have hpi : ∀ x ∈ counterLetters, i.mentions x = true → x ∈ env := by
      intro x hx
      exact hps (i, j) (List.mem_cons_self _ _) x hx
    have hrest : ∀ p ∈ rest, ∀ x ∈ counterLetters, p.1.mentions x = true → x ∈ env :=
      fun p hp => hps p (List.mem_cons_of_mem _ hp)
    simp only [extendIndices] at h
    split at h
    · rename_i li ld hi hd
      split at h
      · split at h
        · rename_i lidx hidx
          split at h
          · rename_i indices hrec
            obtain rfl : lidx.toExpr :: indices = res := Option.some.inj h
            intro e he x hx hm
            rcases List.mem_cons.mp he with rfl | he2
            · obtain ⟨q, hq⟩ := toExpr_mentions hm
              have hmm : (Expr.add i (Expr.var n)).mentions x = true :=
                simplify_mentions _ _ hidx x q hq
              simp only [Expr.mentions, Bool.or_eq_true] at hmm
              rcases hmm with hmm | hmm
              · exact List.mem_cons_of_mem _ (hpi x hx hmm)
              · have : n = x := by simpa using hmm
                exact this ▸ List.mem_cons_self _ _
            · exact extIdxW n rest env hrest indices hrec e he2 x hx hm
          · exact Option.noConfusion h
        · exact Option.noConfusion h
      · exact Option.noConfusion h
    · exact Option.noConfusion h

mutual

theorem extWAux : ∀ (a b : FormatNode) (n : String) (env : List String),
    wOK env a → wOK (n :: env) b →
    ∀ c, exnted_loop_node a b n = some c → wOK (n :: env) c
  | .ItemNode an ai, .ItemNode bn bi, n, env => by
    intro ha hb c h
    simp only [wOK] at ha
    simp only [exnted_loop_node] at h
    split at h
    · exact Option.noConfusion h
    · split at h
      · rename_i indices heq
        obtain rfl : FormatNode.ItemNode an indices = c := Option.some.inj h
        have hps : ∀ p ∈ ai.zip bi, ∀ x ∈ counterLetters,
            p.1.mentions x = true → x ∈ env := by
          intro p hp x hx
          obtain ⟨h1, _⟩ := List.of_mem_zip hp
          exact ha x hx p.1 h1
        simp only [wOK]
        exact fun x hx e he hm => extIdxW n (ai.zip bi) env hps indices heq e he x hx hm
      · exact Option.noConfusion h
  | .NewlineNode, .NewlineNode, n, env => by
    intro ha hb c h
    simp only [exnted_loop_node] at h
    obtain rfl : FormatNode.NewlineNode = c := Option.some.inj h
    trivial
  | .SequenceNode xs, .SequenceNode ys, n, env => by
    intro ha hb c h
    simp only [wOK] at ha hb
    simp only [exnted_loop_node] at h
    split at h
    · exact Option.noConfusion h
    · split at h
      · rename_i items heq
        obtain rfl : FormatNode.SequenceNode items = c := Option.some.inj h
        simp only [wOK]
        exact extListWAux xs ys n env ha hb items heq
      · exact Option.noConfusion h
  | .LoopNode asize an abody, .LoopNode bsize bn bbody, n, env => by
    intro ha hb c h
    simp only [wOK] at ha hb
    obtain ⟨ha1, ha2, ha3⟩ := ha
    obtain ⟨hb1, hb2, hb3⟩ := hb
    simp only [exnted_loop_node] at h
    split at h
    · exact Option.noConfusion h
    · rename_i hcond
      push_neg at hcond
      obtain ⟨hsize, hname⟩ := hcond
      split at h
      · rename_i c2 heq
        obtain rfl : FormatNode.LoopNode asize an c2 = c := Option.some.inj h
        have hb3' : wOK (an :: n :: env) bbody := by
          refine wOK_mono bbody (bn :: n :: env) (an :: n :: env) ?_ hb3
          intro x hx
          rcases List.mem_cons.mp hx with rfl | hx2
          · exact hname ▸ List.mem_cons_self _ _
          · exact List.mem_cons_of_mem _ hx2
        have hrec := extWAux abody bbody n (an :: env) ha3
          (wOK_mono bbody (an :: n :: env) (n :: an :: env) (by
            intro x hx
            rcases List.mem_cons.mp hx with rfl | hx2
            · exact List.mem_cons_of_mem _ (List.mem_cons_self _ _)
            · rcases List.mem_cons.mp hx2 with rfl | hx3
              · exact List.mem_cons_self _ _
              · exact List.mem_cons_of_mem _ (List.mem_cons_of_mem _ hx3)) hb3')
          c2 heq
        simp only [wOK]
        refine ⟨ha1, ha2, ?_⟩
        refine wOK_mono c2 (n :: an :: env) (an :: n :: env) ?_ hrec
        intro x hx
        rcases List.mem_cons.mp hx with rfl | hx2
        · exact List.mem_cons_of_mem _ (List.mem_cons_self _ _)
        · rcases List.mem_cons.mp hx2 with rfl | hx3
          · exact List.mem_cons_self _ _
          · exact List.mem_cons_of_mem _ (List.mem_cons_of_mem _ hx3)
      · exact Option.noConfusion h
  | .ItemNode _ _, .NewlineNode, _, _ => by
    intro _ _ c h
    simp only [exnted_loop_node] at h
    exact Option.noConfusion h
  | .ItemNode _ _, .SequenceNode _, _, _ => by
    intro _ _ c h
    simp only [exnted_loop_node] at h
    exact Option.noConfusion h
  | .ItemNode _ _, .LoopNode _ _ _, _, _ => by
    intro _ _ c h
    simp only [exnted_loop_node] at h
    exact Option.noConfusion h
  | .NewlineNode, .ItemNode _ _, _, _ => by
    intro _ _ c h
    simp only [exnted_loop_node] at h
    exact Option.noConfusion h
  | .NewlineNode, .SequenceNode _, _, _ => by
    intro _ _ c h
    simp only [exnted_loop_node] at h
    exact Option.noConfusion h
  | .NewlineNode, .LoopNode _ _ _, _, _ => by
    intro _ _ c h
    simp only [exnted_loop_node] at h
    exact Option.noConfusion h
  | .SequenceNode _, .ItemNode _ _, _, _ => by
    intro _ _ c h
    simp only [exnted_loop_node] at h
    exact Option.noConfusion h
  | .SequenceNode _, .NewlineNode, _, _ => by
    intro _ _ c h
    simp only [exnted_loop_node] at h
    exact Option.noConfusion h
  | .SequenceNode _, .LoopNode _ _ _, _, _ => by
    intro _ _ c h
    simp only [exnted_loop_node] at h
    exact Option.noConfusion h
  | .LoopNode _ _ _, .ItemNode _ _, _, _ => by
    intro _ _ c h
    simp only [exnted_loop_node] at h
    exact Option.noConfusion h
  | .LoopNode _ _ _, .NewlineNode, _, _ => by
    intro _ _ c h
    simp only [exnted_loop_node] at h
    exact Option.noConfusion h
  | .LoopNode _ _ _, .SequenceNode _, _, _ => by
    intro _ _ c h
    simp only [exnted_loop_node] at h
    exact Option.noConfusion h

theorem extListWAux : ∀ (xs ys : List FormatNode) (n : String) (env : List String),
    wOKList env xs → wOKList (n :: env) ys →
    ∀ res, extendList xs ys n = some res → wOKList (n :: env) res
  | [], ys, n, env => by
    intro ha hb res h
    simp only [extendList] at h
    obtain rfl : ([] : List FormatNode) = res := Option.some.inj h
    trivial
  | x :: xs2, [], n, env => by
    intro ha hb res h
    simp only [extendList] at h
    obtain rfl : ([] : List FormatNode) = res := Option.some.inj h
    trivial
  | x :: xs2, y :: ys2, n, env => by
    intro ha hb res h
    simp only [wOKList] at ha hb
    simp only [extendList] at h
    split at h
    · rename_i c heq
      split at h
      · rename_i items heq2
        obtain rfl : c :: items = res := Option.some.inj h
        simp only [wOKList]
        exact ⟨extWAux x y n env ha.1 hb.1 c heq,
          extListWAux xs2 ys2 n env ha.2 hb.2 items heq2⟩
      · exact Option.noConfusion h
    · exact Option.noConfusion h

end

theorem getLastD_mem : ∀ (l : List FormatNode) (d : FormatNode),
    l = [] ∨ l.getLastD d ∈ l
  | [], d => Or.inl rfl
  | x :: xs, d => Or.inr (by
    rw [List.getLastD_cons]
    exact List.mem_of_mem_getLast? (by simp [List.getLast?_cons]))

theorem flattenW : ∀ (fuel : Nat) (items que res : List FormatNode),
    (∀ t ∈ items, wOK [] t) → (∀ t ∈ que, wOK [] t) →
    flattenGo fuel items que = .ok res → ∀ t ∈ res, wOK [] t
  | 0, items, que, res, hi, hq, h => Except.noConfusion h
  | fuel + 1, items, [], res, hi, hq, h => by
    simp only [flattenGo] at h
    obtain rfl : items = res := Except.ok.inj h
    exact hi
  | fuel + 1, items, q :: que, res, hi, hq, h => by
    have hq1 : wOK [] q := hq q (List.mem_cons_self _ _)
    have hq2 : ∀ t ∈ que, wOK [] t := fun t ht => hq t (List.mem_cons_of_mem _ ht)
    match q, hq1 with
    | .SequenceNode xs, hq1 =>
      simp only [flattenGo] at h
      refine flattenW fuel items (xs ++ que) res hi ?_ h
      intro t ht
      rcases List.mem_append.mp ht with ht2 | ht2
      · exact (wOKList_iff [] xs).mp hq1 t ht2
      · exact hq2 t ht2
    | .LoopNode size name body, hq1 =>
      obtain ⟨hn1, hn2, hn3⟩ := hq1
      simp only [flattenGo] at h
      by_cases hemp : items.isEmpty
      · rw [if_pos hemp] at h
        refine flattenW fuel (items ++ [.LoopNode size name body]) que res ?_ hq2 h
        intro t ht
        rcases List.mem_append.mp ht with ht2 | ht2
        · exact hi t ht2
        · obtain rfl : t = FormatNode.LoopNode size name body := List.mem_singleton.mp ht2
          exact ⟨hn1, hn2, hn3⟩
      · rw [if_neg hemp] at h
        have hinit : ∀ t ∈ (splitTail items body).1, wOK [] t := by
          intro t ht
          unfold splitTail at ht
          split at ht
          · split at ht
            · exact hi t (List.mem_of_mem_take ht)
            · exact hi t (List.dropLast_subset _ ht)
          · exact hi t (List.dropLast_subset _ ht)
        have htail : wOK [] (splitTail items body).2 := by
          unfold splitTail
          split
          · split
            · refine (wOKList_iff [] _).mpr ?_
              intro t ht
              exact hi t (List.mem_of_mem_drop ht)
            · rcases getLastD_mem items .NewlineNode with hcase | hcase
              · rw [hcase] at hemp
                exact absurd rfl hemp
              · exact hi _ hcase
          · rcases getLastD_mem items .NewlineNode with hcase | hcase
            · rw [hcase] at hemp
              exact absurd rfl hemp
            · exact hi _ hcase
        split at h
        · rename_i extendedBody hext
          split at h
          · rename_i newSize hnew
            refine flattenW fuel (splitTail items body).1
              (.LoopNode newSize name extendedBody :: que) res hinit ?_ h
            intro t ht
            rcases List.mem_cons.mp ht with rfl | ht2
            · refine ⟨hn1, ?_, ?_⟩
              · by_cases hmm : newSize.mentions name = true
                · have h2 : (Expr.add size (Expr.num 1)).mentions name = true :=
                    canonStr_mentions hnew hmm
                  simp only [Expr.mentions, Bool.or_eq_true] at h2
                  rcases h2 with h2 | h2
                  · rw [h2] at hn2
                    exact Bool.noConfusion hn2
                  · exact Bool.noConfusion h2
                · exact Bool.eq_false_iff.mpr (fun h2 => hmm h2)
              · exact extWAux (splitTail items body).2 body name [] htail hn3
                  extendedBody hext
            · exact hq2 t ht2
          · exact Except.noConfusion h
        · refine flattenW fuel (items ++ [.LoopNode size name body]) que res ?_ hq2 h
          intro t ht
          rcases List.mem_append.mp ht with ht2 | ht2
          · exact hi t ht2
          · obtain rfl : t = FormatNode.LoopNode size name body :=
              List.mem_singleton.mp ht2
            exact ⟨hn1, hn2, hn3⟩
    | .ItemNode nm idx, hq1 =>
      simp only [flattenGo] at h
      refine flattenW fuel (items ++ [.ItemNode nm idx]) que res ?_ hq2 h
      intro t ht
      rcases List.mem_append.mp ht with ht2 | ht2
      · exact hi t ht2
      · obtain rfl : t = FormatNode.ItemNode nm idx := List.mem_singleton.mp ht2
        exact hq1
    | .NewlineNode, hq1 =>
      simp only [flattenGo] at h
      refine flattenW fuel (items ++ [.NewlineNode]) que res ?_ hq2 h
      intro t ht
      rcases List.mem_append.mp ht with ht2 | ht2
      · exact hi t ht2
      · obtain rfl : t = FormatNode.NewlineNode := List.mem_singleton.mp ht2
        exact hq1


theorem canonIndices_mentions : ∀ (l : List Expr) (res : List Expr),
    canonIndices l = .ok res → ∀ s ∈ res, ∀ x : String, s.mentions x = true →
      ∃ e ∈ l, e.mentions x = true
  | [], res, h => by
    simp only [canonIndices] at h
    obtain rfl : ([] : List Expr) = res := Except.ok.inj h
    intro s hs
    exact absurd hs (List.not_mem_nil _)
  | e :: rest, res, h => by
    simp only [canonIndices] at h
    split at h
    · rename_i s0 hcanon
      split at h
      · rename_i ss hrest
        obtain rfl : s0 :: ss = res := Except.ok.inj h
        intro s hs x hm
        rcases List.mem_cons.mp hs with rfl | hs2
        · exact ⟨e, List.mem_cons_self _ _, canonStr_mentions hcanon hm⟩
        · obtain ⟨e2, he2, hm2⟩ := canonIndices_mentions rest ss hrest s hs2 x hm
          exact ⟨e2, List.mem_cons_of_mem _ he2, hm2⟩
      · exact Except.noConfusion h
    · exact Except.noConfusion h

theorem freshCounterName_spec {used : List String} {name : String}
    (h : freshCounterName used = some name) :
    name ∈ counterLetters ∧ name ∉ used := by
  refine ⟨List.mem_of_find?_eq_some h, ?_⟩
  have h2 := List.find?_some h
  intro hmem
  rw [Bool.not_eq_true'] at h2
  exact absurd (List.elem_eq_true_of_mem hmem) (by simp [List.contains] at h2 ⊢; exact h2)

mutual

theorem analyzeW : ∀ (p : ParserNode) (t : FormatNode),
    analyze p = .ok t →
    (∀ x ∈ counterLetters, ∀ e ∈ pExprs p, e.mentions x = false) →
    wOK [] t
  | .ItemParserNode nm indices, t => by
    intro h hp
    simp only [analyze] at h
    split at h
    · rename_i idx hcanon
      obtain rfl : FormatNode.ItemNode nm idx = t := Except.ok.inj h
      simp only [wOK]
      intro x hx e he hm
      obtain ⟨e0, he0, hm0⟩ := canonIndices_mentions indices idx hcanon e he x hm
      have h2 := hp x hx e0 (by simpa [pExprs] using he0)
      rw [hm0] at h2
      exact Bool.noConfusion h2
    · exact Except.noConfusion h
  | .NewlineParserNode, t => by
    intro h hp
    simp only [analyze] at h
    obtain rfl : FormatNode.NewlineNode = t := Except.ok.inj h
    trivial
  | .SequenceParserNode items, t => by
    intro h hp
    simp only [analyze] at h
    split at h
    · rename_i que hque
      have hwq : ∀ u ∈ que, wOK [] u := by
        refine (wOKList_iff [] que).mp (analyzeListW items que hque ?_)
        intro x hx e he
        exact hp x hx e (by simpa [pExprs] using he)
      split at h
      · rename_i item hflat
        obtain rfl : item = t := Except.ok.inj h
        exact flattenW (flattenFuel que) [] que [item]
          (fun u hu => absurd hu (List.not_mem_nil _)) hwq hflat item
          (List.mem_singleton.mpr rfl)
      · rename_i items2 hnot hflat
        obtain rfl : FormatNode.SequenceNode items2 = t := Except.ok.inj h
        simp only [wOK]
        refine (wOKList_iff [] items2).mpr ?_
        exact flattenW (flattenFuel que) [] que items2
          (fun u hu => absurd hu (List.not_mem_nil _)) hwq hflat
      · exact Except.noConfusion h
    · exact Except.noConfusion h
  | .DotsParserNode f l, t => by
    intro h hp
    simp only [analyze] at h
    split at h
    · exact Except.noConfusion h
    · rename_i a hf
      split at h
      · exact Except.noConfusion h
      · rename_i b hl
        split at h
        · exact Except.noConfusion h
        · rename_i name hfresh
          have hwa : wOK [] a := analyzeW f a hf (by
            intro x hx e he
            exact hp x hx e (by simp only [pExprs, List.mem_append]; exact Or.inl he))
          have hwb : wOK [] b := analyzeW l b hl (by
            intro x hx e he
            exact hp x hx e (by simp only [pExprs, List.mem_append]; exact Or.inr he))
          obtain ⟨hnc, hnu⟩ := freshCounterName_spec hfresh
          unfold dotsUnify at h
          split at h
          · exact Except.noConfusion h
          · exact Except.noConfusion h
          · rename_i c s heq
            obtain rfl : FormatNode.LoopNode s name c = t := Except.ok.inj h
            have hw := zipWAux a b name none [] [] hwa hwb
              (fun s2 hs2 => Option.noConfusion hs2) (c, some s) heq
            simp only [wOK]
            refine ⟨hnc, ?_, hw.1⟩
            by_cases hmm : s.mentions name = true
            · rcases hw.2 s rfl name hnc hmm with h2 | h2 | h2
              · exact absurd h2 (List.not_mem_nil _)
              · exact absurd h2 (List.not_mem_nil _)
              · exact absurd (List.mem_append.mpr
                  (Or.inl (loopNames_sub_used a name h2))) hnu
            · exact Bool.eq_false_iff.mpr (fun h2 => hmm h2)

theorem analyzeListW : ∀ (ps : List ParserNode) (ts : List FormatNode),
    analyzeList ps = .ok ts →
    (∀ x ∈ counterLetters, ∀ e ∈ pExprsList ps, e.mentions x = false) →
    wOKList [] ts
  | [], ts => by
    intro h hp
    simp only [analyzeList] at h
    obtain rfl : ([] : List FormatNode) = ts := Except.ok.inj h
    trivial
  | p :: ps2, ts => by
    intro h hp
    simp only [analyzeList] at h
    split at h
    · rename_i a ha
      split at h
      · rename_i rest hrest
        obtain rfl : a :: rest = ts := Except.ok.inj h
        simp only [wOKList]
        constructor
        · exact analyzeW p a ha (by
            intro x hx e he
            exact hp x hx e (by
              simp only [pExprsList, List.mem_append]
              exact Or.inl he))
        · exact analyzeListW ps2 rest hrest (by
            intro x hx e he
            exact hp x hx e (by
              simp only [pExprsList, List.mem_append]
              exact Or.inr he))
      · exact Except.noConfusion h
    · exact Except.noConfusion h

end


/-- C2 counterexample: on the concrete input `"x_i ... x_N\n"` — whose
index expressions mention the letter `i` — `analyze` (run through the
full pipeline) returns a tree whose loop stores the size
`N + (-1*i + 1)`, which mentions that same loop's counter `i`: the
claimed invariant fails, because counter allocation consults only the
item and loop names of the two operand trees, not the free identifiers
of index expressions. -/
theorem c2_counterexample :
    pipeline "x_i ... x_N\n".data =
      .ok (.SequenceNode
        [.LoopNode
            (.add (.var "N") (.add (.mul (.num (-1)) (.var "i")) (.num 1)))
            "i"
            (.ItemNode "x" [.add (.mul (.num 2) (.var "i")) (.num 0)]),
          .NewlineNode]) ∧
    (Expr.add (.var "N")
        (.add (.mul (.num (-1)) (.var "i")) (.num 1))).mentions "i" = true ∧
    loopSizesClean
      (.SequenceNode
        [.LoopNode
            (.add (.var "N") (.add (.mul (.num (-1)) (.var "i")) (.num 1)))
            "i"
            (.ItemNode "x" [.add (.mul (.num 2) (.var "i")) (.num 0)]),
          .NewlineNode]) = false :=
  ⟨by with_unfolding_all rfl, by decide, by decide⟩

/-- C2 (amended): for every parse tree none of whose raw index
expressions mentions a counter letter `i`–`z`, every `LoopNode` anywhere
in the abstract tree returned by `analyze` stores a size expression that
does not mention that same `LoopNode`'s counter name. -/
theorem c2_loop_sizes_clean (p : ParserNode) (t : FormatNode)
    (hp : pMentionsCounters p = false) (h : analyze p = .ok t) :
    loopSizesClean t = true := by
  refine wOK_clean t [] (analyzeW p t h ?_)
  intro x hx e he
  by_cases hm : e.mentions x = true
  · exfalso
    have h2 : counterLetters.any (fun y => (pExprs p).any (fun e2 => e2.mentions y)) = true :=
      List.any_eq_true.mpr ⟨x, hx, List.any_eq_true.mpr ⟨e, he, hm⟩⟩
    rw [pMentionsCounters] at hp
    rw [hp] at h2
    exact Bool.noConfusion h2
  · exact Bool.eq_false_iff.mpr hm

/-- Witness for the amended C2 at a concrete dots pair. -/
theorem c2_witness :
    pMentionsCounters
      (.DotsParserNode (.ItemParserNode "A" [.num 1])
        (.ItemParserNode "A" [.var "N"])) = false ∧
    analyze
      (.DotsParserNode (.ItemParserNode "A" [.num 1])
        (.ItemParserNode "A" [.var "N"])) =
      .ok (.LoopNode (.add (.var "N") (.num 0)) "i"
        (.ItemNode "A" [.add (.var "i") (.num 1)])) ∧
    loopSizesClean
      (.LoopNode (.add (.var "N") (.num 0)) "i"
        (.ItemNode "A" [.add (.var "i") (.num 1)])) = true :=
  ⟨by decide, by with_unfolding_all rfl,
    c2_loop_sizes_clean
      (.DotsParserNode (.ItemParserNode "A" [.num 1])
        (.ItemParserNode "A" [.var "N"]))
      (.LoopNode (.add (.var "N") (.num 0)) "i"
        (.ItemNode "A" [.add (.var "i") (.num 1)]))
      (by decide) (by with_unfolding_all rfl)⟩
